import Mathlib

/-!
Verification of the compilation pipeline of the online-code-editor repository.

The file embeds, as executable Lean definitions, the parts of the source that
the checked properties are about:

* `src/public/workers/compilerWorker.js` — dependency extraction
  (`extractDependencies`), the three-colour depth-first traversal
  (`buildDependencyGraph` / `visit`), the worker request handler
  (`self.onmessage`, here `handleRequest`), the emitted module registry
  runtime (`__registerModule` / `__getModule`, here `registerModule` /
  `getModule`), the Babel plugin's `ImportDeclaration` visitor
  (`pluginImportDeclaration`) and the text post-processing of
  `export default` (`rewriteExportDefault`).
* `src/src/demo/components/CompilerStrategy.tsx` — `analyzeAndSelectStrategy`
  and the worker response correlation of `compileFrontend`.
* `src/src/demo/components/DependencyManager.tsx` — `CDN_PATH_MAP`,
  `analyzePackageEntry` and `findValidCdnUrl`.

JavaScript strings are modelled as `String` / `List Char`; the regular
expressions of the source are implemented as explicit scanners with the
same matching semantics on the inputs considered; JavaScript objects used
as string-keyed maps are association lists in insertion order; `Set` is a
duplicate-free list.  External collaborators (Babel, the network) enter as
function parameters.
-/

namespace OnlineEditor

/-! ## String scanning helpers

`isPre needle hay` is `hay.startsWith needle` on character lists,
`containsSub needle hay` is JavaScript's `hay.includes(needle)`. -/

def isPre : List Char → List Char → Bool
  | [], _ => true
  | _ :: _, [] => false
  | a :: as, b :: bs => a == b && isPre as bs

def containsSub (needle : List Char) : List Char → Bool
  | [] => isPre needle []
  | c :: cs => isPre needle (c :: cs) || containsSub needle cs

def strContains (hay needle : String) : Bool := containsSub needle.toList hay.toList

def isSufChars (suffix hay : List Char) : Bool := isPre suffix.reverse hay.reverse

/-- `s.startsWith pre` (list-based so that the kernel can evaluate it). -/
def strStartsWith (s pre : String) : Bool := isPre pre.toList s.toList

/-- `s.endsWith suffix`. -/
def strEndsWith (s suffix : String) : Bool := isSufChars suffix.toList s.toList

/-- `s.slice(n)` / Lean's `String.drop`. -/
def strDrop (s : String) (n : Nat) : String := String.mk (s.toList.drop n)

/-- `String.dropRight`: the string without its last `n` characters. -/
def strDropRight (s : String) (n : Nat) : String :=
  String.mk (s.toList.take (s.toList.length - n))

/-- The character class `['"]` of the worker's import regex. -/
def isQuoteChar (c : Char) : Bool := c == '\'' || c == '"'

/-! ## compilerWorker.js : dependency extraction

The worker scans each module's content with
`/import\s+[^'"]*from\s+['"]([^'"]+)['"]/g` (`extractDependencies`,
compilerWorker.js lines 407–423).  `matchImportAt` decides whether a match
of that pattern starts at the head of `t` and returns the captured
specifier together with the text after the match.  Because `[^'"]*` cannot
cross a quote and `\s+` cannot backtrack past a non-whitespace character,
a match starts at `t` exactly when: `t` starts with `import`, the maximal
quote-free run after it starts with whitespace and ends with `from`
followed by at least one whitespace character, and the text after the run
is a quote, one or more non-quote characters, and a quote. -/

def matchImportAt (t : List Char) : Option (List Char × List Char) :=
  if isPre "import".toList t then
    let t1 := t.drop 6
    let run := t1.takeWhile (fun c => !(isQuoteChar c))
    let rest := t1.drop run.length
    match run.head? with
    | none => none
    | some c0 =>
      if c0.isWhitespace then
        let ws2 := run.reverse.takeWhile Char.isWhitespace
        if ws2.isEmpty then none
        else
          let core := run.take (run.length - ws2.length)
          if isSufChars "from".toList core then
            match rest with
            | [] => none
            | _q1 :: r2 =>
              let cap := r2.takeWhile (fun c => !(isQuoteChar c))
              if cap.isEmpty then none
              else
                match r2.drop cap.length with
                | [] => none
                | _q2 :: r3 => some (cap, r3)
          else none
      else none
  else none

/-- All capture groups of the global regex, scanning left to right and
continuing after each match (`content.matchAll` / repeated `exec`).  The
fuel is the length of the text; every step consumes at least one
character, so the initial fuel `t.length` is never exhausted. -/
def scanImportSources (fuel : Nat) (t : List Char) : List (List Char) :=
  match fuel, t with
  | 0, _ => []
  | _, [] => []
  | fuel + 1, c :: cs =>
    match matchImportAt (c :: cs) with
    | some (cap, rest) => cap :: scanImportSources fuel rest
    | none => scanImportSources fuel cs

def importSpecifiers (content : String) : List String :=
  (scanImportSources content.toList.length content.toList).map fun l => String.mk l

/-- `importPath.replace(/^\.\//, '')` — one leading `./` is stripped,
`../` is left alone (compilerWorker.js line 415). -/
def stripRelDot (s : String) : String := if strStartsWith s "./" then strDrop s 2 else s

/-- `.replace(/\.(tsx?|jsx?)$/, '')`. -/
def stripCodeExt (s : String) : String :=
  if strEndsWith s ".tsx" then strDropRight s 4
  else if strEndsWith s ".jsx" then strDropRight s 4
  else if strEndsWith s ".ts" then strDropRight s 3
  else if strEndsWith s ".js" then strDropRight s 3
  else s

def resolveRelPath (s : String) : String := stripCodeExt (stripRelDot s)

def isRelativeSpec (s : String) : Bool := strStartsWith s "./" || strStartsWith s "../"

/-- A source module as the worker receives it: `modules[id] = { id, content }`. -/
structure Module where
  id : String
  content : String
deriving Repr, DecidableEq

/-- The worker's `modules` object: a string-keyed map in insertion order. -/
abbrev ModuleMap := List (String × Module)

def moduleKeys (modules : ModuleMap) : List String := modules.map Prod.fst

/-- compilerWorker.js lines 407–423: for every match of the import regex,
a specifier starting with `./` or `../` is normalized and kept only when
`modules[resolvedPath]` exists; anything else is skipped silently. -/
def extractDependencies (modules : ModuleMap) (content : String) : List String :=
  (((importSpecifiers content).filter isRelativeSpec).map resolveRelPath).filter
    fun p => (modules.lookup p).isSome

/-- The dependency function the traversal uses: the extracted dependencies
of the module stored under `m` (`extractDependencies(modules[moduleId].content)`). -/
def depsOf (modules : ModuleMap) (m : String) : List String :=
  match modules.lookup m with
  | some md => extractDependencies modules md.content
  | none => []

/-! ## compilerWorker.js : buildDependencyGraph (lines 400–455) -/

def cycleMsg (m : String) : String := "检测到循环依赖: " ++ m

def missingMsg (m : String) : String := "模块未找到: " ++ m

/-- The mutable state of `buildDependencyGraph`: the sets `visiting` and
`visited` (as duplicate-free lists) and the arrays `order` and `errors`. -/
structure GraphState where
  visiting : List String
  visited : List String
  order : List String
  errors : List String
deriving Repr, DecidableEq

/-- The recursive `visit` of compilerWorker.js lines 425–448, with the
dependency function `D` and the key test `present`
(`!modules[moduleId]`) abstracted.  The JavaScript recursion terminates
because the `visiting` check cuts repeated frames; here a fuel argument
makes that explicit, and `buildDependencyGraph` supplies a fuel that the
lemmas below show is never exhausted. -/
def visit (D : String → List String) (present : String → Bool) :
    Nat → String → GraphState → GraphState
  | 0, _, st => st
  | n + 1, m, st =>
    if m ∈ st.visiting then
      { st with errors := st.errors ++ [cycleMsg m] }
    else if m ∈ st.visited then st
    else if present m = false then
      { st with errors := st.errors ++ [missingMsg m] }
    else
      let st1 : GraphState := { st with visiting := m :: st.visiting }
      let st2 := (D m).foldl (fun s d => visit D present n d s) st1
      { st2 with
          visiting := st2.visiting.erase m
          visited := m :: st2.visited
          order := st2.order ++ [m] }

structure GraphResult where
  order : List String
  errors : List String
deriving Repr, DecidableEq

/-- compilerWorker.js lines 401–455: fresh state, then
`for (const moduleId in modules) visit(moduleId)`. -/
def buildDependencyGraph (modules : ModuleMap) : GraphResult :=
  let keys := moduleKeys modules
  let final := keys.foldl
    (fun st k =>
      visit (depsOf modules) (fun m => (modules.lookup m).isSome) (keys.length + 1) k st)
    ⟨[], [], [], []⟩
  ⟨final.order, final.errors⟩

/-! ## compilerWorker.js : bundle generation and the request handler

`compileModule` (lines 232–398) runs Babel — imported into the worker via
`importScripts`, the spec's external syntax-lowering engine — followed by
text post-processing; the request handler below therefore takes the
per-module compilation as a function parameter `compileModuleFn` returning
either the compiled text or a thrown error message.  The `export default`
post-processing step, which one claim is about, is modelled separately as
`rewriteExportDefault`. -/

def joinWith (sep : String) : List String → String
  | [] => ""
  | [x] => x
  | x :: y :: xs => x ++ sep ++ joinWith sep (y :: xs)

/-- The module registry runtime emitted at the head of every bundle
(`generateBundle`, lines 459–500; braces written as escapes). -/
def moduleRegistryRuntime : String :=
  "\n    const __moduleCache = new Map();\n    const __moduleRegistry = new Map();\n    \n    function __registerModule(id, factory) \x7b\n      __moduleRegistry.set(id, factory);\n    \x7d\n    \n    function __getModule(id) \x7b\n      console.log('请求模块:', id);\n      \n      if (__moduleCache.has(id)) \x7b\n        console.log('从缓存返回模块:', id);\n        return __moduleCache.get(id);\n      \x7d\n      \n      const factory = __moduleRegistry.get(id);\n      if (!factory) \x7b\n        console.error('模块未找到:', id);\n        console.log('可用模块:', Array.from(__moduleRegistry.keys()));\n        throw new Error('模块未找到: ' + id);\n      \x7d\n      \n      console.log('执行模块工厂:', id);\n      globalThis.__moduleExports = \x7b\x7d;\n      \n      try \x7b\n        factory();\n        const exports = globalThis.__moduleExports;\n        console.log('模块导出:', id, exports);\n        __moduleCache.set(id, exports);\n        return exports;\n      \x7d catch (error) \x7b\n        console.error('执行模块失败:', id, error);\n        throw new Error('执行模块 ' + id + ' 失败: ' + error.message);\n      \x7d\n    \x7d\n    \n    if (!globalThis.React) \x7b\n      throw new Error('React未加载');\n    \x7d\n  "

/-- One `__registerModule` call of the bundle (lines 502–511). -/
def moduleRegistration (moduleId compiledCode : String) : String :=
  "\n      __registerModule('" ++ moduleId ++ "', function() \x7b\n        " ++
    compiledCode ++ "\n      \x7d);\n    "

/-- The bundle trailer requesting the entry module (lines 513–527). -/
def entryExecution (entryModule : String) : String :=
  "\n    try \x7b\n      const entryModule = __getModule('" ++ entryModule ++
    "');\n      const Component = entryModule.default || entryModule;\n      \n      if (typeof Component === 'function') \x7b\n        globalThis.__EntryComponent = Component;\n      \x7d else \x7b\n        throw new Error('入口模块没有导出有效的React组件');\n      \x7d\n    \x7d catch (error) \x7b\n      console.error('执行入口模块失败:', error);\n      throw error;\n    \x7d\n  "

/-- `generateBundle` (lines 458–530): registry runtime, one registration per
module in dependency order, entry execution. -/
def generateBundle (compiledModules : List (String × String)) (moduleOrder : List String)
    (entryModule : String) : String :=
  moduleRegistryRuntime ++
    moduleOrder.foldl
      (fun acc mid => acc ++ moduleRegistration mid ((compiledModules.lookup mid).getD ""))
      "" ++
    entryExecution entryModule

/-- The compilation loop of `self.onmessage` (lines 556–576): each module of
the dependency order is compiled; a thrown compilation error aborts the
whole request. -/
def compileModulesInOrder (compileModuleFn : String → String → Except String String)
    (modules : ModuleMap) : List String → Except String (List (String × String))
  | [] => .ok []
  | mid :: rest =>
    match compileModuleFn mid ((modules.lookup mid).map Module.content |>.getD "") with
    | .error e => .error e
    | .ok code =>
      match compileModulesInOrder compileModuleFn modules rest with
      | .error e => .error e
      | .ok others => .ok ((mid, code) :: others)

structure WorkerRequest where
  id : String
  modules : ModuleMap
  entryModule : String
deriving Repr, DecidableEq

structure WorkerResponse where
  id : String
  success : Bool
  bundleCode : Option String
  error : Option String
deriving Repr, DecidableEq

/-- `self.onmessage` (lines 533–597): dependency analysis; non-empty error
list throws (`依赖分析失败`), and any thrown error is posted as
`{ id, success: false, error }` with no `bundleCode`; otherwise the bundle
is generated and posted with `success: true`. -/
def handleRequest (compileModuleFn : String → String → Except String String)
    (request : WorkerRequest) : WorkerResponse :=
  let dependencyResult := buildDependencyGraph request.modules
  if dependencyResult.errors.length > 0 then
    { id := request.id, success := false, bundleCode := none,
      error := some ("依赖分析失败:\n" ++ joinWith "\n" dependencyResult.errors) }
  else
    match compileModulesInOrder compileModuleFn request.modules dependencyResult.order with
    | .error e =>
      { id := request.id, success := false, bundleCode := none, error := some e }
    | .ok compiledModules =>
      { id := request.id, success := true,
        bundleCode := some (generateBundle compiledModules dependencyResult.order
          request.entryModule),
        error := none }

/-! ## The emitted module registry, as a state machine

`__registerModule` / `__getModule` of `moduleRegistryRuntime` (lines
459–500).  A factory is the effect of calling `factory()`: either the
exports object it leaves in `globalThis.__moduleExports` or the error it
throws; `Exports` is a type parameter.  `getModule` returns the result,
the new registry state, and whether the factory was invoked by this call. -/

structure ModuleRegistry (Exports : Type) where
  registry : List (String × Except String Exports)
  cache : List (String × Exports)

def registerModule {Exports : Type} (reg : ModuleRegistry Exports) (id : String)
    (factory : Except String Exports) : ModuleRegistry Exports :=
  { reg with registry := (id, factory) :: reg.registry }

def getModule {Exports : Type} (reg : ModuleRegistry Exports) (id : String) :
    Except String Exports × ModuleRegistry Exports × Bool :=
  match reg.cache.lookup id with
  | some exports => (.ok exports, reg, false)
  | none =>
    match reg.registry.lookup id with
    | none => (.error ("模块未找到: " ++ id), reg, false)
    | some factory =>
      match factory with
      | .error e => (.error ("执行模块 " ++ id ++ " 失败: " ++ e), reg, true)
      | .ok exports =>
        (.ok exports, { reg with cache := (id, exports) :: reg.cache }, true)

/-! ## compilerWorker.js : the Babel plugin's ImportDeclaration visitor

`createModuleResolverPlugin` (lines 8–229) is defined in the worker but
never passed to `Babel.transform` (line 286: "先不用自定义插件，用后处理的
方式"); its `ImportDeclaration` visitor (lines 13–121) decides, per import
statement, one of the outcomes below.  For a relative specifier whose
normalized id is not in the module map it executes `path.remove()`
(lines 116–119). -/

inductive ImportRewrite
  | reactGlobals
  | removedCss
  | moduleAccessor (resolved : String)
  | removedMissing
  | untouched
deriving Repr, DecidableEq

def pluginImportDeclaration (modules : ModuleMap) (source : String) : ImportRewrite :=
  if source == "react" then .reactGlobals
  else if strEndsWith source ".css" then .removedCss
  else if strStartsWith source "./" || strStartsWith source "../" then
    let resolvedPath := resolveRelPath source
    if (modules.lookup resolvedPath).isSome then .moduleAccessor resolvedPath
    else .removedMissing
  else .untouched

/-! ## compilerWorker.js : the `export default` post-processing

Step 5 of `compileModule` (lines 336–344):
`compiledCode.replace(/export\s+default\s+([^;]+);?\s*\/g, ...)` replaces
every match by two assignment statements, each containing a copy of the
trimmed captured text. -/

def strTrim (s : String) : String :=
  String.mk (((s.toList.dropWhile Char.isWhitespace).reverse.dropWhile
    Char.isWhitespace).reverse)

/-- A match of `/export\s+default\s+([^;]+);?\s*\/` starting at the head of
`t`: the captured expression text and the text after the match. -/
def matchExportDefaultAt (t : List Char) : Option (List Char × List Char) :=
  if isPre "export".toList t then
    let t1 := t.drop 6
    let ws1 := t1.takeWhile Char.isWhitespace
    if ws1.isEmpty then none
    else
      let t2 := t1.drop ws1.length
      if isPre "default".toList t2 then
        let t3 := t2.drop 7
        let ws2 := t3.takeWhile Char.isWhitespace
        if ws2.isEmpty then none
        else
          let t4 := t3.drop ws2.length
          let cap := t4.takeWhile fun c => c != ';'
          if cap.isEmpty then none
          else
            let t5 := t4.drop cap.length
            let t6 := match t5 with
              | ';' :: r => r
              | r => r
            some (cap, t6.dropWhile Char.isWhitespace)
      else none
  else none

/-- The first match of the pattern in `code`: text before the match, the
captured expression, text after the match. -/
def findExportDefault : List Char → Option (List Char × List Char × List Char)
  | [] => none
  | c :: cs =>
    match matchExportDefaultAt (c :: cs) with
    | some (cap, rest) => some ([], cap, rest)
    | none => (findExportDefault cs).map fun r => (c :: r.1, r.2.1, r.2.2)

/-- The replacement text of line 342: the cleaned capture spliced in twice. -/
def exportDefaultReplacement (cleanExportName : String) : String :=
  "globalThis.__moduleExports = " ++ cleanExportName ++
    ";\nglobalThis.__moduleExports.default = " ++ cleanExportName ++ ";\n"

def rewriteExportDefaultGo (fuel : Nat) (code : List Char) : String :=
  match fuel with
  | 0 => String.mk code
  | fuel + 1 =>
    match findExportDefault code with
    | none => String.mk code
    | some (before, cap, after) =>
      String.mk before ++ exportDefaultReplacement (strTrim (String.mk cap)) ++
        rewriteExportDefaultGo fuel after

/-- The global replace of step 5 on the whole module text. -/
def rewriteExportDefault (code : String) : String :=
  rewriteExportDefaultGo code.toList.length code.toList

/-! ## Executing the replacement pair: a minimal JavaScript value model

Evaluating the two emitted statements in a host where values are heap
addresses: a `function` expression allocates a fresh function object each
time it is evaluated, an identifier reads its binding; the second
statement stores the second value in the `.default` property of the
first.  Modelled from JavaScript evaluation semantics (the host of the
generated bundle), which the repository delegates to the browser. -/

structure JsHeap where
  next : Nat
  defaultProp : List (Nat × Nat)
deriving Repr, DecidableEq

def isFunctionExpr (t : String) : Bool := strStartsWith t "function"

def evalExprText (env : List (String × Nat)) (h : JsHeap) (t : String) :
    Option (Nat × JsHeap) :=
  if isFunctionExpr t then some (h.next, { h with next := h.next + 1 })
  else (env.lookup t).map fun addr => (addr, h)

/-- Executes `globalThis.__moduleExports = t; globalThis.__moduleExports.default = t;`
and returns (bare exports value, value of its `.default` property, heap). -/
def runExportDefaultAssignments (env : List (String × Nat)) (h0 : JsHeap) (t : String) :
    Option (Nat × Nat × JsHeap) :=
  match evalExprText env h0 t with
  | none => none
  | some (bare, h1) =>
    match evalExprText env h1 t with
    | none => none
    | some (dflt, h2) => some (bare, dflt, { h2 with defaultProp := (bare, dflt) :: h2.defaultProp })

/-! ## CompilerStrategy.tsx : analyzeAndSelectStrategy (lines 156–208) -/

inductive CompilationStrategy
  | frontend
  | backend
  | webcontainer
deriving Repr, DecidableEq

structure FileInfo where
  name : String
  content : String
deriving Repr, DecidableEq

/-- `Set` insertion across iteration, then `Array.from`: first occurrences
in order. -/
def dedupFirst (l : List String) : List String :=
  l.foldl (fun acc d => if d ∈ acc then acc else acc ++ [d]) []

/-- Lines 161–172: every capture of the same import regex over every file,
kept when it starts with neither `./` nor `../`, collected into a `Set`. -/
def collectDependencies (files : List FileInfo) : List String :=
  dedupFirst (((files.map fun f => importSpecifiers f.content).flatten).filter
    fun dep => !(strStartsWith dep "./") && !(strStartsWith dep "../"))

/-- `/import\([^)]+\)/.test(content)` (line 194): an occurrence of
`import(`, at least one character other than `)`, then `)`. -/
def hasDynamicImportCall : List Char → Bool
  | [] => false
  | c :: cs =>
    (isPre "import(".toList (c :: cs) &&
      (let t := (c :: cs).drop 7
       let run := t.takeWhile fun ch => ch != ')'
       !run.isEmpty && !(t.drop run.length).isEmpty)) ||
    hasDynamicImportCall cs

/-- Lines 187–196: `require(`, `process.env`, `import.meta`, the literal
`dynamic import`, or a dynamic-import call. -/
def fileHasAdvancedFeatures (f : FileInfo) : Bool :=
  strContains f.content "require(" || strContains f.content "process.env" ||
    strContains f.content "import.meta" || strContains f.content "dynamic import" ||
    hasDynamicImportCall f.content.toList

/-- Total content length in characters; the source compares
`totalSize / 1024 > 50` on exact numbers, which equals `bytes > 50 * 1024`. -/
def totalContentSize (files : List FileInfo) : Nat :=
  files.foldl (fun size f => size + f.content.length) 0

def isBaseRuntimeDep (dep : String) : Bool :=
  (dep == "react" || dep == "react-dom") || strStartsWith dep "@types/"

/-- `analyzeAndSelectStrategy` (lines 156–208). -/
def analyzeAndSelectStrategy (files : List FileInfo) : CompilationStrategy :=
  let fileCount := files.length
  let depArray := collectDependencies files
  let hasComplexDependencies := depArray.any fun dep => !(isBaseRuntimeDep dep)
  let hasAdvancedFeatures := files.any fileHasAdvancedFeatures
  if hasAdvancedFeatures || (hasComplexDependencies && depArray.length > 5) then
    .backend
  else if hasComplexDependencies || totalContentSize files > 50 * 1024 || fileCount > 5 then
    .webcontainer
  else
    .frontend

/-! ## CompilerStrategy.tsx / AdvancedPreview.tsx : response correlation

`compileFrontend` (lines 211–268) increments a request counter, posts the
request with `id: requestId.toString()`, and installs a listener that
resolves when `result.id === requestId.toString()` — the id of that call,
not the most recently issued one.  Each resolution reaches
`handleCompilationComplete` (AdvancedPreview.tsx lines 197–206), which
overwrites the preview's compilation result unconditionally.  The state is
the list of pending request ids and the last result delivered to the
preview; responses are processed in arrival order. -/

def deliverWorkerResponse (pending : List Nat) (preview : Option WorkerResponse)
    (result : WorkerResponse) : List Nat × Option WorkerResponse :=
  if pending.any (fun requestId => result.id == toString requestId) then
    (pending.filter (fun requestId => !(result.id == toString requestId)), some result)
  else
    (pending, preview)

def processWorkerResponses (pending : List Nat) (preview : Option WorkerResponse)
    (results : List WorkerResponse) : List Nat × Option WorkerResponse :=
  results.foldl (fun s r => deliverWorkerResponse s.1 s.2 r) (pending, preview)

/-! ## DependencyManager.tsx : CDN URL resolution -/

/-- `CDN_PATH_MAP` (DependencyManager.tsx lines 84–113). -/
def CDN_PATH_MAP : List (String × String) :=
  [("lodash", "lodash.min.js"),
   ("axios", "dist/axios.min.js"),
   ("moment", "moment.min.js"),
   ("dayjs", "dayjs.min.js"),
   ("ramda", "dist/ramda.min.js"),
   ("react", "umd/react.production.min.js"),
   ("react-dom", "umd/react-dom.production.min.js"),
   ("react-router-dom", "dist/umd/react-router-dom.min.js"),
   ("styled-components", "dist/styled-components.min.js"),
   ("prop-types", "prop-types.min.js"),
   ("react-transition-group", "dist/react-transition-group.min.js"),
   ("vue", "dist/vue.global.min.js"),
   ("vuex", "dist/vuex.global.min.js"),
   ("vue-router", "dist/vue-router.global.min.js"),
   ("three", "build/three.min.js"),
   ("d3", "dist/d3.min.js"),
   ("gsap", "dist/gsap.min.js"),
   ("chart.js", "dist/chart.min.js"),
   ("fabric", "dist/fabric.min.js"),
   ("pixi.js", "dist/pixi.min.js"),
   ("babylonjs", "dist/babylon.js"),
   ("classnames", "index.js"),
   ("uuid", "dist/umd/uuid.min.js"),
   ("jquery", "dist/jquery.min.js")]

/-- The `browser` field of a package.json: absent, a string, or an object. -/
inductive BrowserField
  | absent
  | str (path : String)
  | obj (entries : List (String × String))
deriving Repr, DecidableEq

/-- The fields of a fetched package.json that `analyzePackageEntry` reads. -/
structure PackageJson where
  name : String
  unpkg : Option String
  jsdelivr : Option String
  browser : BrowserField
  moduleField : Option String
  main : Option String
deriving Repr, DecidableEq

/-- `path.replace(/\.js$/, '.min.js')`. -/
def minJsVariant (path : String) : String :=
  if strEndsWith path ".js" then strDropRight path 3 ++ ".min.js" else path

/-- `analyzePackageEntry` (DependencyManager.tsx lines 141–215). -/
def analyzePackageEntry (packageInfo : PackageJson) : List String :=
  let possiblePaths :=
    (match packageInfo.unpkg with | some p => [p] | none => []) ++
    (match packageInfo.jsdelivr with | some p => [p] | none => []) ++
    (match packageInfo.browser with
     | .str p => [p]
     | .obj entries =>
       match entries.lookup (packageInfo.main.getD "./index.js") with
       | some p => [p]
       | none => []
     | .absent => []) ++
    (match packageInfo.moduleField with | some p => [p] | none => []) ++
    (match packageInfo.main with | some p => [p] | none => [])
  let possiblePaths := if possiblePaths.isEmpty then ["index.js"] else possiblePaths
  let allPaths := possiblePaths.foldl
    (fun acc path =>
      let acc := acc ++ [stripRelDot path]
      let acc :=
        if !(strContains path ".min.") then acc ++ [stripRelDot (minJsVariant path)]
        else acc
      if !(strContains path "umd") && !(strContains path "dist") then
        let umdPath := "dist/umd/" ++ stripRelDot path
        acc ++ [umdPath, minJsVariant umdPath]
      else acc)
    []
  let allPaths := allPaths ++
    ["dist/" ++ packageInfo.name ++ ".min.js",
     "dist/" ++ packageInfo.name ++ ".js",
     packageInfo.name ++ ".min.js",
     packageInfo.name ++ ".js",
     "dist/index.min.js",
     "dist/index.js"]
  dedupFirst allPaths

def cdnUrlFor (packageName version path : String) : String :=
  "https://cdn.jsdelivr.net/npm/" ++ packageName ++ "@" ++ version ++ "/" ++ path

/-- `findValidCdnUrl` (lines 279–326).  The network enters as parameters:
`packageInfo` is the fetched package.json (`none` when fetching threw) and
`validateCdnUrl` the probe of lines 232–276.  Probed candidate paths are
tried first; only when none validates (or the fetch threw) does the
static `CDN_PATH_MAP` — and, absent an entry there, the default
`<name>.min.js` guess — supply the result. -/
def findValidCdnUrl (packageInfo : Option PackageJson) (validateCdnUrl : String → Bool)
    (packageName version : String) : String :=
  let fallback :=
    match CDN_PATH_MAP.lookup packageName with
    | some knownPath => cdnUrlFor packageName version knownPath
    | none => cdnUrlFor packageName version (packageName ++ ".min.js")
  match packageInfo with
  | none => fallback
  | some pkgInfo =>
    match (analyzePackageEntry pkgInfo).find?
        (fun path => validateCdnUrl (cdnUrlFor packageName version path)) with
    | some path => cdnUrlFor packageName version path
    | none => fallback

/-! ## Graph predicates used by the statements -/

/-- `visitFold n ds st` is the `deps.forEach(dep => visit(dep))` loop. -/
def visitFold (D : String → List String) (present : String → Bool) (n : Nat)
    (ds : List String) (st : GraphState) : GraphState :=
  ds.foldl (fun s d => visit D present n d s) st

/-- Reachability in one or more steps along the dependency edges `x → d`
for `d ∈ D x`. -/
inductive Reaches (D : String → List String) : String → String → Prop
  | single : ∀ {a b}, b ∈ D a → Reaches D a b
  | tail : ∀ {a b c}, Reaches D a b → c ∈ D b → Reaches D a c

/-- The relative-import graph has no cycle. -/
def AcyclicDeps (D : String → List String) : Prop := ∀ x, ¬ Reaches D x x

/-- `l` lists every element after all of its dependencies. -/
def TopoSorted (D : String → List String) (l : List String) : Prop :=
  ∀ x d, x ∈ l → d ∈ D x → d ∈ l ∧ l.indexOf d < l.indexOf x

/-- The structural invariant of a traversal state: the `visiting` stack is
duplicate-free and holds only keys of the module map. -/
def StateOk (K : List String) (st : GraphState) : Prop :=
  st.visiting.Nodup ∧ ∀ v ∈ st.visiting, v ∈ K

/-- `visited` and `order` list the same ids, without duplicates, and every
listed id is present in the module map. -/
def RInv (present : String → Bool) (st : GraphState) : Prop :=
  (∀ x, x ∈ st.visited ↔ x ∈ st.order) ∧ st.order.Nodup ∧
    ∀ x ∈ st.order, present x = true

/-! ## Theorems -/

theorem nodup_subset_length {l K : List String} (hn : l.Nodup) (hs : ∀ v ∈ l, v ∈ K) :
    l.length ≤ K.length := by
  calc l.length = l.toFinset.card := (List.toFinset_card_of_nodup hn).symm
    _ ≤ K.toFinset.card := Finset.card_le_card fun a ha =>
        List.mem_toFinset.mpr (hs a (List.mem_toFinset.mp ha))
    _ ≤ K.length := List.toFinset_card_le K

theorem mem_keys_of_lookup_isSome {α : Type} {l : List (String × α)} {k : String}
    (h : (l.lookup k).isSome = true) : k ∈ l.map Prod.fst := by
  induction l with
  | nil => simp [List.lookup] at h
  | cons p tl ih =>
    obtain ⟨a, b⟩ := p
    by_cases hk : k = a
    · subst hk; exact List.mem_cons_self _ _
    · have hba : (k == a) = false := beq_eq_false_iff_ne.mpr hk
      simp only [List.lookup, hba] at h
      exact List.mem_cons_of_mem _ (ih h)

theorem lookup_isSome_of_mem_keys {α : Type} {l : List (String × α)} {k : String}
    (h : k ∈ l.map Prod.fst) : (l.lookup k).isSome = true := by
  induction l with
  | nil => simp at h
  | cons p tl ih =>
    obtain ⟨a, b⟩ := p
    by_cases hk : k = a
    · subst hk; simp [List.lookup]
    · have htl : k ∈ tl.map Prod.fst := by
        rcases List.mem_cons.mp h with h' | h'
        · exact absurd h' hk
        · exact h'
      have hba : (k == a) = false := beq_eq_false_iff_ne.mpr hk
      simp only [List.lookup, hba]
      exact ih htl

theorem visit_zero (D : String → List String) (present : String → Bool) (m : String)
    (st : GraphState) : visit D present 0 m st = st := rfl

theorem visit_succ (D : String → List String) (present : String → Bool) (n : Nat)
    (m : String) (st : GraphState) :
    visit D present (n + 1) m st =
      if m ∈ st.visiting then { st with errors := st.errors ++ [cycleMsg m] }
      else if m ∈ st.visited then st
      else if present m = false then { st with errors := st.errors ++ [missingMsg m] }
      else
        { visitFold D present n (D m) { st with visiting := m :: st.visiting } with
            visiting := (visitFold D present n (D m)
              { st with visiting := m :: st.visiting }).visiting.erase m
            visited := m :: (visitFold D present n (D m)
              { st with visiting := m :: st.visiting }).visited
            order := (visitFold D present n (D m)
              { st with visiting := m :: st.visiting }).order ++ [m] } := rfl

theorem visitFold_cons (D : String → List String) (present : String → Bool) (n : Nat)
    (d : String) (ds : List String) (st : GraphState) :
    visitFold D present n (d :: ds) st = visitFold D present n ds (visit D present n d st) :=
  rfl

/-- The bookkeeping facts of one `visit` call, for any fuel at least
`|K| + 1 - |visiting|`: the `visiting` stack is restored, `errors` and
`order` only grow at the end, `visited` only grows and its new members were
not on the stack, `RInv` is preserved, and a present module not currently
on the stack is marked visited. -/
theorem visit_master {D : String → List String} {present : String → Bool} {K : List String}
    (HP : ∀ x, present x = true → x ∈ K) :
    ∀ n m st, StateOk K st → K.length + 1 ≤ n + st.visiting.length →
      (visit D present n m st).visiting = st.visiting ∧
      (∃ t, (visit D present n m st).errors = st.errors ++ t) ∧
      (∃ t, (visit D present n m st).order = st.order ++ t) ∧
      (∀ x, x ∈ st.visited → x ∈ (visit D present n m st).visited) ∧
      (∀ x, x ∈ (visit D present n m st).visited → x ∈ st.visited ∨ x ∉ st.visiting) ∧
      (RInv present st → RInv present (visit D present n m st)) ∧
      (present m = true → m ∉ st.visiting → m ∈ (visit D present n m st).visited) := by
  intro n
  induction n with
  | zero =>
    intro m st hok hbound
    have hlen := nodup_subset_length hok.1 hok.2
    exact absurd hbound (by omega)
  | succ n ih =>
    intro m st hok hbound
    by_cases h1 : m ∈ st.visiting
    · rw [visit_succ, if_pos h1]
      exact ⟨rfl, ⟨[cycleMsg m], rfl⟩, ⟨[], (List.append_nil _).symm⟩, fun x hx => hx,
        fun x hx => Or.inl hx, fun hR => hR, fun _ hmv => absurd h1 hmv⟩
    · by_cases h2 : m ∈ st.visited
      · rw [visit_succ, if_neg h1, if_pos h2]
        exact ⟨rfl, ⟨[], (List.append_nil _).symm⟩, ⟨[], (List.append_nil _).symm⟩,
          fun x hx => hx, fun x hx => Or.inl hx, fun hR => hR, fun _ _ => h2⟩
      · cases h3 : present m with
        | false =>
          rw [visit_succ, if_neg h1, if_neg h2, if_pos h3]
          exact ⟨rfl, ⟨[missingMsg m], rfl⟩, ⟨[], (List.append_nil _).symm⟩, fun x hx => hx,
            fun x hx => Or.inl hx, fun hR => hR, fun habs => Bool.noConfusion habs⟩
        | true =>
          have hcond : ¬ (present m = false) := by rw [h3]; exact fun hh => Bool.noConfusion hh
          rw [visit_succ, if_neg h1, if_neg h2, if_neg hcond]
          have hs1 : StateOk K ({ st with visiting := m :: st.visiting }) := by
            refine ⟨List.nodup_cons.mpr ⟨h1, hok.1⟩, ?_⟩
            intro v hv
            rcases List.mem_cons.mp hv with hveq | hv
            · rw [hveq]; exact HP m h3
            · exact hok.2 v hv
          have hb1 : K.length + 1 ≤
              n + ({ st with visiting := m :: st.visiting } : GraphState).visiting.length := by
            simp only [List.length_cons]
            omega
          have hfold : ∀ (ds : List String) (s : GraphState), StateOk K s →
              K.length + 1 ≤ n + s.visiting.length →
              (visitFold D present n ds s).visiting = s.visiting ∧
              (∃ t, (visitFold D present n ds s).errors = s.errors ++ t) ∧
              (∃ t, (visitFold D present n ds s).order = s.order ++ t) ∧
              (∀ x, x ∈ s.visited → x ∈ (visitFold D present n ds s).visited) ∧
              (∀ x, x ∈ (visitFold D present n ds s).visited →
                x ∈ s.visited ∨ x ∉ s.visiting) ∧
              (RInv present s → RInv present (visitFold D present n ds s)) := by
            intro ds
            induction ds with
            | nil =>
              intro s hs hb
              exact ⟨rfl, ⟨[], (List.append_nil _).symm⟩, ⟨[], (List.append_nil _).symm⟩,
                fun x hx => hx, fun x hx => Or.inl hx, fun hR => hR⟩
            | cons d ds ihds =>
              intro s hs hb
              obtain ⟨v1, ⟨t1, e1⟩, ⟨u1, o1⟩, m1, nv1, r1, c1⟩ := ih d s hs hb
              have hs2 : StateOk K (visit D present n d s) := by
                refine ⟨?_, ?_⟩
                · rw [v1]; exact hs.1
                · intro v hv; rw [v1] at hv; exact hs.2 v hv
              have hb2 : K.length + 1 ≤ n + (visit D present n d s).visiting.length := by
                rw [v1]; exact hb
              obtain ⟨v2, ⟨t2, e2⟩, ⟨u2, o2⟩, m2, nv2, r2⟩ :=
                ihds (visit D present n d s) hs2 hb2
              rw [visitFold_cons]
              refine ⟨v2.trans v1, ⟨t1 ++ t2, ?_⟩, ⟨u1 ++ u2, ?_⟩,
                fun x hx => m2 x (m1 x hx), ?_, fun hR => r2 (r1 hR)⟩
              · rw [e2, e1, List.append_assoc]
              · rw [o2, o1, List.append_assoc]
              · intro x hx
                rcases nv2 x hx with hx2 | hx2
                · exact nv1 x hx2
                · rw [v1] at hx2
                  exact Or.inr hx2
          obtain ⟨v2, ⟨t2, e2⟩, ⟨u2, o2⟩, m2, nv2, r2⟩ := hfold (D m) _ hs1 hb1
          have hmnotvisited :
              m ∉ (visitFold D present n (D m) { st with visiting := m :: st.visiting }).visited := by
            intro hmem
            rcases nv2 m hmem with h' | h'
            · exact h2 h'
            · exact h' (List.mem_cons_self m _)
          refine ⟨?_, ⟨t2, e2⟩, ⟨u2 ++ [m], ?_⟩, ?_, ?_, ?_, ?_⟩
          · show (visitFold D present n (D m)
                { st with visiting := m :: st.visiting }).visiting.erase m = st.visiting
            rw [v2]
            exact List.erase_cons_head m st.visiting
          · show (visitFold D present n (D m)
                { st with visiting := m :: st.visiting }).order ++ [m] = st.order ++ (u2 ++ [m])
            rw [o2, List.append_assoc]
          · exact fun x hx => List.mem_cons_of_mem _ (m2 x hx)
          · intro x hx
            rcases List.mem_cons.mp hx with rfl | hx
            · exact Or.inr h1
            · rcases nv2 x hx with h' | h'
              · exact Or.inl h'
              · exact Or.inr fun hxx => h' (List.mem_cons_of_mem _ hxx)
          · intro hR
            obtain ⟨hiff, hnd, hpres⟩ := r2 hR
            have hmorder :
                m ∉ (visitFold D present n (D m) { st with visiting := m :: st.visiting }).order :=
              fun hmo => hmnotvisited ((hiff m).mpr hmo)
            refine ⟨?_, ?_, ?_⟩
            · intro x
              constructor
              · intro hx
                rcases List.mem_cons.mp hx with rfl | hx
                · exact List.mem_append.mpr (Or.inr (List.mem_singleton.mpr rfl))
                · exact List.mem_append.mpr (Or.inl ((hiff x).mp hx))
              · intro hx
                rcases List.mem_append.mp hx with hx | hx
                · exact List.mem_cons_of_mem _ ((hiff x).mpr hx)
                · rw [List.mem_singleton] at hx
                  subst hx
                  exact List.mem_cons_self _ _
            · refine List.nodup_append.mpr ⟨hnd, List.nodup_singleton m, ?_⟩
              intro a ha hb
              rw [List.mem_singleton] at hb
              subst hb
              exact hmorder ha
            · intro x hx
              rcases List.mem_append.mp hx with hx | hx
              · exact hpres x hx
              · rw [List.mem_singleton] at hx
                subst hx
                exact h3
          · exact fun _ _ => List.mem_cons_self m _

/-- The facts of `visit_master`, composed over the `deps.forEach` fold. -/
theorem visitFold_facts {D : String → List String} {present : String → Bool} {K : List String}
    (HP : ∀ x, present x = true → x ∈ K) :
    ∀ (n : Nat) (ds : List String) (st : GraphState), StateOk K st →
      K.length + 1 ≤ n + st.visiting.length →
      (visitFold D present n ds st).visiting = st.visiting ∧
      (∃ t, (visitFold D present n ds st).errors = st.errors ++ t) ∧
      (∃ t, (visitFold D present n ds st).order = st.order ++ t) ∧
      (∀ x, x ∈ st.visited → x ∈ (visitFold D present n ds st).visited) ∧
      (∀ x, x ∈ (visitFold D present n ds st).visited → x ∈ st.visited ∨ x ∉ st.visiting) ∧
      (RInv present st → RInv present (visitFold D present n ds st)) := by
  intro n ds
  induction ds with
  | nil =>
    intro st hok hb
    exact ⟨rfl, ⟨[], (List.append_nil _).symm⟩, ⟨[], (List.append_nil _).symm⟩,
      fun x hx => hx, fun x hx => Or.inl hx, fun hR => hR⟩
  | cons d ds ihds =>
    intro st hok hb
    obtain ⟨v1, ⟨t1, e1⟩, ⟨u1, o1⟩, m1, nv1, r1, _⟩ := visit_master HP n d st hok hb
    have hs2 : StateOk K (visit D present n d st) := by
      refine ⟨?_, ?_⟩
      · rw [v1]; exact hok.1
      · intro v hv; rw [v1] at hv; exact hok.2 v hv
    have hb2 : K.length + 1 ≤ n + (visit D present n d st).visiting.length := by
      rw [v1]; exact hb
    obtain ⟨v2, ⟨t2, e2⟩, ⟨u2, o2⟩, m2, nv2, r2⟩ := ihds (visit D present n d st) hs2 hb2
    rw [visitFold_cons]
    refine ⟨v2.trans v1, ⟨t1 ++ t2, ?_⟩, ⟨u1 ++ u2, ?_⟩,
      fun x hx => m2 x (m1 x hx), ?_, fun hR => r2 (r1 hR)⟩
    · rw [e2, e1, List.append_assoc]
    · rw [o2, o1, List.append_assoc]
    · intro x hx
      rcases nv2 x hx with hx2 | hx2
      · exact nv1 x hx2
      · rw [v1] at hx2
        exact Or.inr hx2

/-- The facts of the top-level `for (const moduleId in modules)` loop, with
the fuel `|K| + 1` that `buildDependencyGraph` supplies. -/
theorem foldKeys_facts {D : String → List String} {present : String → Bool} {K : List String}
    (HP : ∀ x, present x = true → x ∈ K) :
    ∀ (ks : List String) (st : GraphState), st.visiting = [] → StateOk K st →
      (ks.foldl (fun s k => visit D present (K.length + 1) k s) st).visiting = [] ∧
      StateOk K (ks.foldl (fun s k => visit D present (K.length + 1) k s) st) ∧
      (∃ t, (ks.foldl (fun s k => visit D present (K.length + 1) k s) st).errors =
        st.errors ++ t) ∧
      (∀ x, x ∈ st.visited →
        x ∈ (ks.foldl (fun s k => visit D present (K.length + 1) k s) st).visited) ∧
      (RInv present st →
        RInv present (ks.foldl (fun s k => visit D present (K.length + 1) k s) st)) ∧
      (∀ k ∈ ks, present k = true →
        k ∈ (ks.foldl (fun s k => visit D present (K.length + 1) k s) st).visited) := by
  intro ks
  induction ks with
  | nil =>
    intro st hemp hok
    exact ⟨hemp, hok, ⟨[], (List.append_nil _).symm⟩, fun x hx => hx, fun hR => hR,
      fun k hk => absurd hk (List.not_mem_nil k)⟩
  | cons k ks ihks =>
    intro st hemp hok
    have hb : K.length + 1 ≤ (K.length + 1) + st.visiting.length := Nat.le_add_right _ _
    obtain ⟨v1, ⟨t1, e1⟩, ⟨u1, o1⟩, m1, nv1, r1, c1⟩ := visit_master HP (K.length + 1) k st hok hb
    have hemp1 : (visit D present (K.length + 1) k st).visiting = [] := v1.trans hemp
    have hs1 : StateOk K (visit D present (K.length + 1) k st) := by
      refine ⟨?_, ?_⟩
      · rw [v1]; exact hok.1
      · intro v hv; rw [v1] at hv; exact hok.2 v hv
    obtain ⟨v2, s2, ⟨t2, e2⟩, m2, r2, c2⟩ := ihks (visit D present (K.length + 1) k st) hemp1 hs1
    rw [List.foldl_cons]
    refine ⟨v2, s2, ⟨t1 ++ t2, ?_⟩, fun x hx => m2 x (m1 x hx), fun hR => r2 (r1 hR), ?_⟩
    · rw [e2, e1, List.append_assoc]
    · intro k' hk' hp'
      rcases List.mem_cons.mp hk' with hk'' | hk''
      · subst hk''
        have hkv : k' ∈ (visit D present (K.length + 1) k' st).visited := by
          apply c1 hp'
          rw [hemp]
          exact List.not_mem_nil k'
        exact m2 k' hkv
      · exact c2 k' hk'' hp'

/-- Every extracted dependency is a key present in the module map (the
`if (modules[resolvedPath])` filter of lines 416–418). -/
theorem depsOf_present {modules : ModuleMap} {x d : String} (h : d ∈ depsOf modules x) :
    (modules.lookup d).isSome = true := by
  unfold depsOf at h
  cases hx : modules.lookup x with
  | none => rw [hx] at h; exact absurd h (List.not_mem_nil d)
  | some md =>
    rw [hx] at h
    unfold extractDependencies at h
    exact (List.mem_filter.mp h).2

/-- `buildDependencyGraph` unfolded to its top-level fold. -/
theorem buildDependencyGraph_eq (modules : ModuleMap) :
    buildDependencyGraph modules =
      ⟨((moduleKeys modules).foldl
          (fun st k => visit (depsOf modules) (fun m => (modules.lookup m).isSome)
            ((moduleKeys modules).length + 1) k st) ⟨[], [], [], []⟩).order,
        ((moduleKeys modules).foldl
          (fun st k => visit (depsOf modules) (fun m => (modules.lookup m).isSome)
            ((moduleKeys modules).length + 1) k st) ⟨[], [], [], []⟩).errors⟩ := rfl

/-- C10: for every module map with distinct ids, the order list returned by
`buildDependencyGraph` is a permutation of the map's keys — every id
appears exactly once, with no hypothesis on the error list: a module found
in a cycle is still completed and appended, and the top-level loop visits
every key. -/
theorem buildDependencyGraph_order_perm (modules : ModuleMap)
    (hnd : (moduleKeys modules).Nodup) :
    ((buildDependencyGraph modules).order).Perm (moduleKeys modules) := by
  have HP : ∀ x, ((modules.lookup x).isSome = true) → x ∈ moduleKeys modules := fun x hx =>
    mem_keys_of_lookup_isSome hx
  obtain ⟨hv, hs, he, hm, hr, hc⟩ :=
    foldKeys_facts (D := depsOf modules) HP (moduleKeys modules) ⟨[], [], [], []⟩ rfl
      ⟨List.nodup_nil, fun v hv => absurd hv (List.not_mem_nil v)⟩
  have hR := hr ⟨fun x => Iff.rfl, List.nodup_nil, fun x hx => absurd hx (List.not_mem_nil x)⟩
  rw [buildDependencyGraph_eq]
  apply List.perm_of_nodup_nodup_toFinset_eq hR.2.1 hnd
  apply Finset.ext
  intro a
  rw [List.mem_toFinset, List.mem_toFinset]
  constructor
  · intro ha
    exact HP a (hR.2.2 a ha)
  · intro ha
    have hp : (modules.lookup a).isSome = true := lookup_isSome_of_mem_keys ha
    exact (hR.1 a).mp (hc a ha hp)

/-- Witness for C10 at a cyclic concrete map: the error list is non-empty,
yet the order is a permutation of the keys. -/
theorem buildDependencyGraph_order_perm_witness :
    ((buildDependencyGraph [("A", ⟨"A", "import x from \"./B\""⟩),
        ("B", ⟨"B", "import y from \"./A\""⟩)]).order).Perm ["A", "B"] ∧
    (buildDependencyGraph [("A", ⟨"A", "import x from \"./B\""⟩),
        ("B", ⟨"B", "import y from \"./A\""⟩)]).errors ≠ [] := by
  refine ⟨buildDependencyGraph_order_perm _ (by decide), by decide⟩

theorem topoSorted_append {D : String → List String} {l : List String} {m : String}
    (hT : TopoSorted D l) (hm : m ∉ l) (hdeps : ∀ d ∈ D m, d ∈ l) :
    TopoSorted D (l ++ [m]) := by
  intro x d hx hd
  rcases List.mem_append.mp hx with hx | hx
  · obtain ⟨hdl, hidx⟩ := hT x d hx hd
    refine ⟨List.mem_append.mpr (Or.inl hdl), ?_⟩
    rw [List.indexOf_append_of_mem hdl, List.indexOf_append_of_mem hx]
    exact hidx
  · rw [List.mem_singleton] at hx
    subst hx
    have hdl := hdeps d hd
    refine ⟨List.mem_append.mpr (Or.inl hdl), ?_⟩
    rw [List.indexOf_append_of_mem hdl, List.indexOf_append_of_not_mem hm,
      List.indexOf_cons_self]
    have hlt : l.indexOf d < l.length := List.indexOf_lt_length.mpr hdl
    omega

/-- Under acyclicity, one `visit` call preserves the topological-sortedness
of `order` and completes its (present) target into `order`; the reach
hypothesis states that everything on the `visiting` stack reaches the
current target, which rules the cycle branch out. -/
theorem visit_topo {D : String → List String} {present : String → Bool} {K : List String}
    (HP : ∀ x, present x = true → x ∈ K)
    (HD : ∀ x d, d ∈ D x → present d = true)
    (HA : AcyclicDeps D) :
    ∀ n m st, StateOk K st → K.length + 1 ≤ n + st.visiting.length →
      RInv present st → TopoSorted D st.order →
      (∀ v ∈ st.visiting, Reaches D v m) →
      RInv present (visit D present n m st) ∧
      TopoSorted D (visit D present n m st).order ∧
      (present m = true → m ∈ (visit D present n m st).order) := by
  intro n
  induction n with
  | zero =>
    intro m st hok hb _ _ _
    have hlen := nodup_subset_length hok.1 hok.2
    exact absurd hb (by omega)
  | succ n ih =>
    intro m st hok hb hR hT hreach
    by_cases h1 : m ∈ st.visiting
    · exact absurd (hreach m h1) (HA m)
    · by_cases h2 : m ∈ st.visited
      · rw [visit_succ, if_neg h1, if_pos h2]
        exact ⟨hR, hT, fun _ => (hR.1 m).mp h2⟩
      · cases h3 : present m with
        | false =>
          rw [visit_succ, if_neg h1, if_neg h2, if_pos h3]
          exact ⟨hR, hT, fun habs => Bool.noConfusion habs⟩
        | true =>
          have hcond : ¬ (present m = false) := by rw [h3]; exact fun hh => Bool.noConfusion hh
          have hs1 : StateOk K ({ st with visiting := m :: st.visiting }) := by
            refine ⟨List.nodup_cons.mpr ⟨h1, hok.1⟩, ?_⟩
            intro v hv
            rcases List.mem_cons.mp hv with hveq | hv
            · rw [hveq]; exact HP m h3
            · exact hok.2 v hv
          have hb1 : K.length + 1 ≤
              n + ({ st with visiting := m :: st.visiting } : GraphState).visiting.length := by
            simp only [List.length_cons]
            omega
          have hfold : ∀ (ds : List String) (s : GraphState),
              (∀ d ∈ ds, d ∈ D m) → StateOk K s →
              K.length + 1 ≤ n + s.visiting.length →
              s.visiting = m :: st.visiting →
              RInv present s → TopoSorted D s.order →
              RInv present (visitFold D present n ds s) ∧
              TopoSorted D (visitFold D present n ds s).order ∧
              (∀ d ∈ ds, d ∈ (visitFold D present n ds s).order) := by
            intro ds
            induction ds with
            | nil =>
              intro s _ _ _ _ hRs hTs
              exact ⟨hRs, hTs, fun d hd => absurd hd (List.not_mem_nil d)⟩
            | cons d ds ihds =>
              intro s hsub hok' hb' hveq hRs hTs
              have hdD : d ∈ D m := hsub d (List.mem_cons_self d ds)
              have hreach1 : ∀ v ∈ s.visiting, Reaches D v d := by
                intro v hv
                rw [hveq] at hv
                rcases List.mem_cons.mp hv with hveq' | hv'
                · rw [hveq']; exact Reaches.single hdD
                · exact Reaches.tail (hreach v hv') hdD
              obtain ⟨hR1, hT1, hc1⟩ := ih d s hok' hb' hRs hTs hreach1
              obtain ⟨v1, _, _, _, _, _, _⟩ := visit_master HP n d s hok' hb'
              have hok1 : StateOk K (visit D present n d s) := by
                refine ⟨?_, ?_⟩
                · rw [v1]; exact hok'.1
                · intro v hv; rw [v1] at hv; exact hok'.2 v hv
              have hb1' : K.length + 1 ≤ n + (visit D present n d s).visiting.length := by
                rw [v1]; exact hb'
              have hveq1 : (visit D present n d s).visiting = m :: st.visiting := v1.trans hveq
              obtain ⟨hR2, hT2, hc2⟩ := ihds (visit D present n d s)
                (fun d' hd' => hsub d' (List.mem_cons_of_mem d hd')) hok1 hb1' hveq1 hR1 hT1
              rw [visitFold_cons]
              refine ⟨hR2, hT2, ?_⟩
              intro d' hd'
              rcases List.mem_cons.mp hd' with hdeq | hd''
              · have hdo : d ∈ (visit D present n d s).order := hc1 (HD m d hdD)
                obtain ⟨_, _, ⟨u2, o2⟩, _, _, _⟩ :=
                  visitFold_facts HP n ds (visit D present n d s) hok1 hb1'
                rw [hdeq, o2]
                exact List.mem_append.mpr (Or.inl hdo)
              · exact hc2 d' hd''
          obtain ⟨hR2, hT2, hcall⟩ := hfold (D m) { st with visiting := m :: st.visiting }
            (fun d hd => hd) hs1 hb1 rfl hR hT
          obtain ⟨v2, _, _, _, nv2, _⟩ :=
            visitFold_facts HP n (D m) { st with visiting := m :: st.visiting } hs1 hb1
          have hmnotvisited : m ∉ (visitFold D present n (D m)
              { st with visiting := m :: st.visiting }).visited := by
            intro hmem
            rcases nv2 m hmem with h' | h'
            · exact h2 h'
            · exact h' (List.mem_cons_self m _)
          have hmorder : m ∉ (visitFold D present n (D m)
              { st with visiting := m :: st.visiting }).order :=
            fun hmo => hmnotvisited ((hR2.1 m).mpr hmo)
          have hRfinal := (visit_master (D := D) HP (n + 1) m st hok hb).2.2.2.2.2.1 hR
          rw [visit_succ, if_neg h1, if_neg h2, if_neg hcond] at hRfinal ⊢
          refine ⟨hRfinal, ?_, ?_⟩
          · exact topoSorted_append hT2 hmorder hcall
          · exact fun _ => List.mem_append.mpr (Or.inr (List.mem_singleton.mpr rfl))

/-- Topological sortedness of the final order, over the top-level loop. -/
theorem foldKeys_topo {D : String → List String} {present : String → Bool} {K : List String}
    (HP : ∀ x, present x = true → x ∈ K)
    (HD : ∀ x d, d ∈ D x → present d = true)
    (HA : AcyclicDeps D) :
    ∀ (ks : List String) (st : GraphState), st.visiting = [] → StateOk K st →
      RInv present st → TopoSorted D st.order →
      TopoSorted D (ks.foldl (fun s k => visit D present (K.length + 1) k s) st).order := by
  intro ks
  induction ks with
  | nil => intro st _ _ _ hT; exact hT
  | cons k ks ihks =>
    intro st hemp hok hR hT
    have hb : K.length + 1 ≤ (K.length + 1) + st.visiting.length := Nat.le_add_right _ _
    have hreach : ∀ v ∈ st.visiting, Reaches D v k := by
      intro v hv
      rw [hemp] at hv
      exact absurd hv (List.not_mem_nil v)
    obtain ⟨hR1, hT1, _⟩ := visit_topo HP HD HA (K.length + 1) k st hok hb hR hT hreach
    obtain ⟨v1, _, _, _, _, _, _⟩ := visit_master HP (K.length + 1) k st hok hb
    have hemp1 : (visit D present (K.length + 1) k st).visiting = [] := v1.trans hemp
    have hok1 : StateOk K (visit D present (K.length + 1) k st) := by
      refine ⟨?_, ?_⟩
      · rw [v1]; exact hok.1
      · intro v hv; rw [v1] at hv; exact hok.2 v hv
    rw [List.foldl_cons]
    exact ihks (visit D present (K.length + 1) k st) hemp1 hok1 hR1 hT1

/-- C1: for every module map whose relative-import graph is acyclic, the
order returned by `buildDependencyGraph` places every module id after all
of the module ids it references via `./` or `../` specifiers that exist in
the map (the extracted dependencies): each dependency appears in the order,
at a strictly smaller index. -/
theorem buildDependencyGraph_topological (modules : ModuleMap)
    (HA : AcyclicDeps (depsOf modules)) (x d : String)
    (hx : x ∈ (buildDependencyGraph modules).order) (hd : d ∈ depsOf modules x) :
    d ∈ (buildDependencyGraph modules).order ∧
      (buildDependencyGraph modules).order.indexOf d <
        (buildDependencyGraph modules).order.indexOf x := by
  have HP : ∀ y, ((modules.lookup y).isSome = true) → y ∈ moduleKeys modules := fun y hy =>
    mem_keys_of_lookup_isSome hy
  have HD : ∀ y e, e ∈ depsOf modules y → ((modules.lookup e).isSome = true) :=
    fun y e he => depsOf_present he
  have hT := foldKeys_topo (K := moduleKeys modules) HP HD HA (moduleKeys modules)
    ⟨[], [], [], []⟩ rfl ⟨List.nodup_nil, fun v hv => absurd hv (List.not_mem_nil v)⟩
    ⟨fun y => Iff.rfl, List.nodup_nil, fun y hy => absurd hy (List.not_mem_nil y)⟩
    (fun y e hy _ => absurd hy (List.not_mem_nil y))
  rw [buildDependencyGraph_eq] at hx ⊢
  exact hT x d hx hd

/-- A dependency function whose only edge is `a0 → b0` with `b0 ≠ a0` is
acyclic. -/
theorem acyclic_single_edge {D : String → List String} {a0 b0 : String}
    (hD : ∀ a b, b ∈ D a → a = a0 ∧ b = b0) (hne : b0 ≠ a0) : AcyclicDeps D := by
  have himg : ∀ p q, Reaches D p q → q = b0 := by
    intro p q h
    induction h with
    | single h => exact (hD _ _ h).2
    | tail _ h2 _ => exact (hD _ _ h2).2
  intro x hx
  have hxb := himg x x hx
  subst hxb
  cases hx with
  | single h => exact hne (hD _ _ h).1
  | tail h1 h2 => exact hne (((himg _ _ h1).symm).trans (hD _ _ h2).1)

/-- Witness for C1 at the two-module map `A` importing `B`: `B` is placed
before `A` in the returned order. -/
theorem buildDependencyGraph_topological_witness :
    "B" ∈ (buildDependencyGraph [("A", ⟨"A", "import B from \"./B\""⟩),
        ("B", ⟨"B", "export default 42"⟩)]).order ∧
    (buildDependencyGraph [("A", ⟨"A", "import B from \"./B\""⟩),
        ("B", ⟨"B", "export default 42"⟩)]).order.indexOf "B" <
      (buildDependencyGraph [("A", ⟨"A", "import B from \"./B\""⟩),
        ("B", ⟨"B", "export default 42"⟩)]).order.indexOf "A" := by
  have hD : ∀ a b, b ∈ depsOf [("A", ⟨"A", "import B from \"./B\""⟩),
      ("B", ⟨"B", "export default 42"⟩)] a → a = "A" ∧ b = "B" := by
    intro a b hb
    by_cases ha : a = "A"
    · subst ha
      have hA : depsOf [("A", ⟨"A", "import B from \"./B\""⟩),
          ("B", ⟨"B", "export default 42"⟩)] "A" = ["B"] := by decide
      rw [hA, List.mem_singleton] at hb
      exact ⟨rfl, hb⟩
    · by_cases ha2 : a = "B"
      · subst ha2
        have hB : depsOf [("A", ⟨"A", "import B from \"./B\""⟩),
            ("B", ⟨"B", "export default 42"⟩)] "B" = [] := by decide
        rw [hB] at hb
        exact absurd hb (List.not_mem_nil b)
      · have g1 : (a == "A") = false := beq_eq_false_iff_ne.mpr ha
        have g2 : (a == "B") = false := beq_eq_false_iff_ne.mpr ha2
        have hnone : List.lookup a [("A", (⟨"A", "import B from \"./B\""⟩ : Module)),
            ("B", ⟨"B", "export default 42"⟩)] = none := by
          simp only [List.lookup, g1, g2]
        have hempty : depsOf [("A", ⟨"A", "import B from \"./B\""⟩),
            ("B", ⟨"B", "export default 42"⟩)] a = [] := by
          unfold depsOf
          rw [hnone]
        rw [hempty] at hb
        exact absurd hb (List.not_mem_nil b)
  have hac : AcyclicDeps (depsOf [("A", ⟨"A", "import B from \"./B\""⟩),
      ("B", ⟨"B", "export default 42"⟩)]) := acyclic_single_edge hD (by decide)
  exact buildDependencyGraph_topological _ hac "A" "B" (by decide) (by decide)

theorem stateOk_of_visiting_eq {K : List String} {s1 s2 : GraphState}
    (h : s2.visiting = s1.visiting) (hok : StateOk K s1) : StateOk K s2 := by
  refine ⟨?_, ?_⟩
  · rw [h]; exact hok.1
  · intro v hv; rw [h] at hv; exact hok.2 v hv

theorem visitFold_append (D : String → List String) (present : String → Bool) (n : Nat)
    (l₁ l₂ : List String) (st : GraphState) :
    visitFold D present n (l₁ ++ l₂) st = visitFold D present n l₂ (visitFold D present n l₁ st) := by
  rw [visitFold, visitFold, visitFold, List.foldl_append]

/-- If some id on the `visiting` stack occurs in the dependency list being
folded, its cycle error is recorded. -/
theorem visitFold_cycle {D : String → List String} {present : String → Bool} {K : List String}
    (HP : ∀ x, present x = true → x ∈ K) :
    ∀ (n : Nat) (ds : List String) (st : GraphState) (x : String), StateOk K st →
      K.length + 1 ≤ n + st.visiting.length → x ∈ ds → x ∈ st.visiting →
      cycleMsg x ∈ (visitFold D present n ds st).errors := by
  intro n ds st x hok hb hxds hxv
  obtain ⟨pre, post, rfl⟩ := List.append_of_mem hxds
  obtain ⟨v1, _, _, _, _, _⟩ := visitFold_facts (D := D) HP n pre st hok hb
  have hok1 := stateOk_of_visiting_eq v1 hok
  have hb1 : K.length + 1 ≤ n + (visitFold D present n pre st).visiting.length := by
    rw [v1]; exact hb
  have hxv1 : x ∈ (visitFold D present n pre st).visiting := by rw [v1]; exact hxv
  have hn : n ≠ 0 := by
    intro h0
    subst h0
    have hlen := nodup_subset_length hok.1 hok.2
    omega
  obtain ⟨n', rfl⟩ : ∃ n', n = n' + 1 := ⟨n - 1, by omega⟩
  rw [visitFold_append, visitFold_cons]
  have hstep : visit D present (n' + 1) x (visitFold D present (n' + 1) pre st) =
      { visitFold D present (n' + 1) pre st with
          errors := (visitFold D present (n' + 1) pre st).errors ++ [cycleMsg x] } := by
    rw [visit_succ, if_pos hxv1]
  have hok2 : StateOk K (visit D present (n' + 1) x (visitFold D present (n' + 1) pre st)) := by
    apply stateOk_of_visiting_eq _ hok1
    rw [hstep]
  have hb2 : K.length + 1 ≤ (n' + 1) +
      (visit D present (n' + 1) x (visitFold D present (n' + 1) pre st)).visiting.length := by
    rw [hstep]; exact hb1
  obtain ⟨_, ⟨t3, e3⟩, _, _, _, _⟩ := visitFold_facts (D := D) HP (n' + 1) post _ hok2 hb2
  rw [e3, hstep]
  exact List.mem_append.mpr (Or.inl (List.mem_append.mpr (Or.inr (List.mem_singleton.mpr rfl))))

/-- Visiting a fresh present module one of whose dependencies is already on
the `visiting` stack records that dependency's cycle error. -/
theorem visit_dep_in_stack {D : String → List String} {present : String → Bool} {K : List String}
    (HP : ∀ x, present x = true → x ∈ K) :
    ∀ (n : Nat) (w u : String) (st : GraphState), StateOk K st →
      K.length + 1 ≤ n + st.visiting.length →
      u ∈ D w → u ∈ st.visiting → w ∉ st.visiting → w ∉ st.visited → present w = true →
      cycleMsg u ∈ (visit D present n w st).errors := by
  intro n w u st hok hb huD huv hw1 hw2 hw3
  have hn : n ≠ 0 := by
    intro h0
    subst h0
    have hlen := nodup_subset_length hok.1 hok.2
    omega
  obtain ⟨n', rfl⟩ : ∃ n', n = n' + 1 := ⟨n - 1, by omega⟩
  have hcond : ¬ (present w = false) := by rw [hw3]; exact fun hh => Bool.noConfusion hh
  rw [visit_succ, if_neg hw1, if_neg hw2, if_neg hcond]
  have hs1 : StateOk K ({ st with visiting := w :: st.visiting }) := by
    refine ⟨List.nodup_cons.mpr ⟨hw1, hok.1⟩, ?_⟩
    intro v hv
    rcases List.mem_cons.mp hv with hveq | hv
    · rw [hveq]; exact HP w hw3
    · exact hok.2 v hv
  have hb1 : K.length + 1 ≤
      n' + ({ st with visiting := w :: st.visiting } : GraphState).visiting.length := by
    simp only [List.length_cons]
    omega
  exact visitFold_cycle HP n' (D w) _ u hs1 hb1 huD (List.mem_cons_of_mem _ huv)

/-- A self-importing module's cycle error is recorded whenever that module
ends up visited. -/
theorem visit_selfloop {D : String → List String} {present : String → Bool} {K : List String}
    (HP : ∀ x, present x = true → x ∈ K) (m0 : String) (hm0 : m0 ∈ D m0) :
    ∀ (n : Nat) (m : String) (st : GraphState), StateOk K st →
      K.length + 1 ≤ n + st.visiting.length →
      (m0 ∈ st.visited → cycleMsg m0 ∈ st.errors) →
      (m0 ∈ (visit D present n m st).visited → cycleMsg m0 ∈ (visit D present n m st).errors) := by
  intro n
  induction n with
  | zero => intro m st _ _ hinv; exact hinv
  | succ n ih =>
    intro m st hok hb hinv
    by_cases h1 : m ∈ st.visiting
    · rw [visit_succ, if_pos h1]
      intro hm
      exact List.mem_append.mpr (Or.inl (hinv hm))
    · by_cases h2 : m ∈ st.visited
      · rw [visit_succ, if_neg h1, if_pos h2]
        exact hinv
      · cases h3 : present m with
        | false =>
          rw [visit_succ, if_neg h1, if_neg h2, if_pos h3]
          intro hm
          exact List.mem_append.mpr (Or.inl (hinv hm))
        | true =>
          have hcond : ¬ (present m = false) := by rw [h3]; exact fun hh => Bool.noConfusion hh
          have hs1 : StateOk K ({ st with visiting := m :: st.visiting }) := by
            refine ⟨List.nodup_cons.mpr ⟨h1, hok.1⟩, ?_⟩
            intro v hv
            rcases List.mem_cons.mp hv with hveq | hv
            · rw [hveq]; exact HP m h3
            · exact hok.2 v hv
          have hb1 : K.length + 1 ≤
              n + ({ st with visiting := m :: st.visiting } : GraphState).visiting.length := by
            simp only [List.length_cons]
            omega
          have hfold : ∀ (ds : List String) (s : GraphState), StateOk K s →
              K.length + 1 ≤ n + s.visiting.length →
              (m0 ∈ s.visited → cycleMsg m0 ∈ s.errors) →
              (m0 ∈ (visitFold D present n ds s).visited →
                cycleMsg m0 ∈ (visitFold D present n ds s).errors) := by
            intro ds
            induction ds with
            | nil => intro s _ _ h; exact h
            | cons d ds ihds =>
              intro s hok' hb' hinv'
              obtain ⟨v1, _, _, _, _, _, _⟩ := visit_master HP n d s hok' hb'
              rw [visitFold_cons]
              exact ihds _ (stateOk_of_visiting_eq v1 hok') (by rw [v1]; exact hb')
                (ih d s hok' hb' hinv')
          rw [visit_succ, if_neg h1, if_neg h2, if_neg hcond]
          by_cases hm : m = m0
          · subst hm
            intro _
            exact visitFold_cycle HP n (D m) _ m hs1 hb1 hm0 (List.mem_cons_self m _)
          · intro hmem
            rcases List.mem_cons.mp hmem with he | hmem'
            · exact absurd he.symm hm
            · exact hfold (D m) _ hs1 hb1 hinv hmem'

/-- Visiting an id that is already on the `visiting` stack records its
cycle error. -/
theorem visit_cycle_hit {D : String → List String} {present : String → Bool} {K : List String}
    (_HP : ∀ x, present x = true → x ∈ K) :
    ∀ (n : Nat) (w : String) (st : GraphState), StateOk K st →
      K.length + 1 ≤ n + st.visiting.length → w ∈ st.visiting →
      cycleMsg w ∈ (visit D present n w st).errors := by
  intro n w st hok hb hw
  have hn : n ≠ 0 := by
    intro h0
    subst h0
    have hlen := nodup_subset_length hok.1 hok.2
    omega
  obtain ⟨n', rfl⟩ : ∃ n', n = n' + 1 := ⟨n - 1, by omega⟩
  rw [visit_succ, if_pos hw]
  exact List.mem_append.mpr (Or.inr (List.mem_singleton.mpr rfl))

/-- For a mutual import pair, once either module ends up visited a cycle
error for one of the two is recorded. -/
theorem visit_pair {D : String → List String} {present : String → Bool} {K : List String}
    (HP : ∀ x, present x = true → x ∈ K) (u w : String)
    (huw : w ∈ D u) (hwu : u ∈ D w) (hpu : present u = true) (hpw : present w = true) :
    ∀ (n : Nat) (m : String) (st : GraphState), StateOk K st →
      K.length + 1 ≤ n + st.visiting.length →
      ((u ∈ st.visited ∨ w ∈ st.visited) →
        (cycleMsg u ∈ st.errors ∨ cycleMsg w ∈ st.errors)) →
      ((u ∈ (visit D present n m st).visited ∨ w ∈ (visit D present n m st).visited) →
        (cycleMsg u ∈ (visit D present n m st).errors ∨
          cycleMsg w ∈ (visit D present n m st).errors)) := by
  intro n
  induction n with
  | zero => intro m st _ _ h; exact h
  | succ n ih =>
    intro m st hok hb hinv
    have hfoldBp : ∀ (ds : List String) (s : GraphState), StateOk K s →
        K.length + 1 ≤ n + s.visiting.length →
        ((u ∈ s.visited ∨ w ∈ s.visited) →
          (cycleMsg u ∈ s.errors ∨ cycleMsg w ∈ s.errors)) →
        ((u ∈ (visitFold D present n ds s).visited ∨ w ∈ (visitFold D present n ds s).visited) →
          (cycleMsg u ∈ (visitFold D present n ds s).errors ∨
            cycleMsg w ∈ (visitFold D present n ds s).errors)) := by
      intro ds
      induction ds with
      | nil => intro s _ _ h; exact h
      | cons d ds ihds =>
        intro s hok' hb' hinv'
        obtain ⟨v1, _, _, _, _, _, _⟩ := visit_master HP n d s hok' hb'
        rw [visitFold_cons]
        exact ihds _ (stateOk_of_visiting_eq v1 hok') (by rw [v1]; exact hb')
          (ih d s hok' hb' hinv')
    by_cases h1 : m ∈ st.visiting
    · rw [visit_succ, if_pos h1]
      intro hm
      rcases hinv hm with h | h
      · exact Or.inl (List.mem_append.mpr (Or.inl h))
      · exact Or.inr (List.mem_append.mpr (Or.inl h))
    · by_cases h2 : m ∈ st.visited
      · rw [visit_succ, if_neg h1, if_pos h2]
        exact hinv
      · cases h3 : present m with
        | false =>
          rw [visit_succ, if_neg h1, if_neg h2, if_pos h3]
          intro hm
          rcases hinv hm with h | h
          · exact Or.inl (List.mem_append.mpr (Or.inl h))
          · exact Or.inr (List.mem_append.mpr (Or.inl h))
        | true =>
          have hcond : ¬ (present m = false) := by rw [h3]; exact fun hh => Bool.noConfusion hh
          have hs1 : StateOk K ({ st with visiting := m :: st.visiting }) := by
            refine ⟨List.nodup_cons.mpr ⟨h1, hok.1⟩, ?_⟩
            intro v hv
            rcases List.mem_cons.mp hv with hveq | hv
            · rw [hveq]; exact HP m h3
            · exact hok.2 v hv
          have hb1 : K.length + 1 ≤
              n + ({ st with visiting := m :: st.visiting } : GraphState).visiting.length := by
            simp only [List.length_cons]
            omega
          rw [visit_succ, if_neg h1, if_neg h2, if_neg hcond]
          by_cases hmu : m = u
          · subst hmu
            intro _
            obtain ⟨pre, post, hds⟩ := List.append_of_mem huw
            obtain ⟨vp, _, _, _, _, _⟩ :=
              visitFold_facts (D := D) HP n pre { st with visiting := m :: st.visiting } hs1 hb1
            have hokA := stateOk_of_visiting_eq vp hs1
            have hbA : K.length + 1 ≤ n +
                (visitFold D present n pre { st with visiting := m :: st.visiting }).visiting.length := by
              rw [vp]; exact hb1
            have hinvA := hfoldBp pre { st with visiting := m :: st.visiting } hs1 hb1 hinv
            have huvA : m ∈ (visitFold D present n pre
                { st with visiting := m :: st.visiting }).visiting := by
              rw [vp]; exact List.mem_cons_self m st.visiting
            obtain ⟨vB, ⟨tB, eB⟩, _, _, _, _, _⟩ := visit_master HP n w
              (visitFold D present n pre { st with visiting := m :: st.visiting }) hokA hbA
            have hCuwB : cycleMsg m ∈ (visit D present n w (visitFold D present n pre
                  { st with visiting := m :: st.visiting })).errors ∨
                cycleMsg w ∈ (visit D present n w (visitFold D present n pre
                  { st with visiting := m :: st.visiting })).errors := by
              by_cases hw1 : w ∈ (visitFold D present n pre
                  { st with visiting := m :: st.visiting }).visiting
              · exact Or.inr (visit_cycle_hit HP n w _ hokA hbA hw1)
              · by_cases hw2 : w ∈ (visitFold D present n pre
                    { st with visiting := m :: st.visiting }).visited
                · rcases hinvA (Or.inr hw2) with h | h
                  · exact Or.inl (by rw [eB]; exact List.mem_append.mpr (Or.inl h))
                  · exact Or.inr (by rw [eB]; exact List.mem_append.mpr (Or.inl h))
                · exact Or.inl (visit_dep_in_stack HP n w m _ hokA hbA hwu huvA hw1 hw2 hpw)
            have hokB := stateOk_of_visiting_eq vB hokA
            have hbB : K.length + 1 ≤ n + (visit D present n w (visitFold D present n pre
                { st with visiting := m :: st.visiting })).visiting.length := by
              rw [vB]; exact hbA
            obtain ⟨_, ⟨tC, eC⟩, _, _, _, _⟩ := visitFold_facts (D := D) HP n post _ hokB hbB
            have hfinal : visitFold D present n (D m) { st with visiting := m :: st.visiting } =
                visitFold D present n post (visit D present n w (visitFold D present n pre
                  { st with visiting := m :: st.visiting })) := by
              rw [hds, visitFold_append, visitFold_cons]
            rw [hfinal]
            show cycleMsg m ∈ (visitFold D present n post (visit D present n w
                (visitFold D present n pre { st with visiting := m :: st.visiting }))).errors ∨
              cycleMsg w ∈ (visitFold D present n post (visit D present n w
                (visitFold D present n pre { st with visiting := m :: st.visiting }))).errors
            rw [eC]
            rcases hCuwB with h | h
            · exact Or.inl (List.mem_append.mpr (Or.inl h))
            · exact Or.inr (List.mem_append.mpr (Or.inl h))
          · by_cases hmw : m = w
            · subst hmw
              intro _
              obtain ⟨pre, post, hds⟩ := List.append_of_mem hwu
              obtain ⟨vp, _, _, _, _, _⟩ :=
                visitFold_facts (D := D) HP n pre { st with visiting := m :: st.visiting } hs1 hb1
              have hokA := stateOk_of_visiting_eq vp hs1
              have hbA : K.length + 1 ≤ n +
                  (visitFold D present n pre { st with visiting := m :: st.visiting }).visiting.length := by
                rw [vp]; exact hb1
              have hinvA := hfoldBp pre { st with visiting := m :: st.visiting } hs1 hb1 hinv
              have hwvA : m ∈ (visitFold D present n pre
                  { st with visiting := m :: st.visiting }).visiting := by
                rw [vp]; exact List.mem_cons_self m st.visiting
              obtain ⟨vB, ⟨tB, eB⟩, _, _, _, _, _⟩ := visit_master HP n u
                (visitFold D present n pre { st with visiting := m :: st.visiting }) hokA hbA
              have hCuwB : cycleMsg u ∈ (visit D present n u (visitFold D present n pre
                    { st with visiting := m :: st.visiting })).errors ∨
                  cycleMsg m ∈ (visit D present n u (visitFold D present n pre
                    { st with visiting := m :: st.visiting })).errors := by
                by_cases hu1 : u ∈ (visitFold D present n pre
                    { st with visiting := m :: st.visiting }).visiting
                · exact Or.inl (visit_cycle_hit HP n u _ hokA hbA hu1)
                · by_cases hu2 : u ∈ (visitFold D present n pre
                      { st with visiting := m :: st.visiting }).visited
                  · rcases hinvA (Or.inl hu2) with h | h
                    · exact Or.inl (by rw [eB]; exact List.mem_append.mpr (Or.inl h))
                    · exact Or.inr (by rw [eB]; exact List.mem_append.mpr (Or.inl h))
                  · exact Or.inr (visit_dep_in_stack HP n u m _ hokA hbA huw hwvA hu1 hu2 hpu)
              have hokB := stateOk_of_visiting_eq vB hokA
              have hbB : K.length + 1 ≤ n + (visit D present n u (visitFold D present n pre
                  { st with visiting := m :: st.visiting })).visiting.length := by
                rw [vB]; exact hbA
              obtain ⟨_, ⟨tC, eC⟩, _, _, _, _⟩ := visitFold_facts (D := D) HP n post _ hokB hbB
              have hfinal : visitFold D present n (D m) { st with visiting := m :: st.visiting } =
                  visitFold D present n post (visit D present n u (visitFold D present n pre
                    { st with visiting := m :: st.visiting })) := by
                rw [hds, visitFold_append, visitFold_cons]
              rw [hfinal]
              show cycleMsg u ∈ (visitFold D present n post (visit D present n u
                  (visitFold D present n pre { st with visiting := m :: st.visiting }))).errors ∨
                cycleMsg m ∈ (visitFold D present n post (visit D present n u
                  (visitFold D present n pre { st with visiting := m :: st.visiting }))).errors
              rw [eC]
              rcases hCuwB with h | h
              · exact Or.inl (List.mem_append.mpr (Or.inl h))
              · exact Or.inr (List.mem_append.mpr (Or.inl h))
            · intro hmem
              have hmem' : u ∈ (visitFold D present n (D m)
                    { st with visiting := m :: st.visiting }).visited ∨
                  w ∈ (visitFold D present n (D m)
                    { st with visiting := m :: st.visiting }).visited := by
                rcases hmem with h | h
                · rcases List.mem_cons.mp h with he | h'
                  · exact absurd he.symm hmu
                  · exact Or.inl h'
                · rcases List.mem_cons.mp h with he | h'
                  · exact absurd he.symm hmw
                  · exact Or.inr h'
              exact hfoldBp (D m) _ hs1 hb1 hinv hmem'

/-- A state property preserved by every `visit` call at the top-level fuel
is preserved by the whole top-level loop. -/
theorem foldKeys_preserve {D : String → List String} {present : String → Bool} {K : List String}
    (HP : ∀ x, present x = true → x ∈ K) (P : GraphState → Prop)
    (hP : ∀ (m : String) (st : GraphState), StateOk K st →
      K.length + 1 ≤ (K.length + 1) + st.visiting.length → P st →
      P (visit D present (K.length + 1) m st)) :
    ∀ (ks : List String) (st : GraphState), StateOk K st → P st →
      P (ks.foldl (fun s k => visit D present (K.length + 1) k s) st) := by
  intro ks
  induction ks with
  | nil => intro st _ h; exact h
  | cons k ks ihks =>
    intro st hok hp
    have hb : K.length + 1 ≤ (K.length + 1) + st.visiting.length := Nat.le_add_right _ _
    obtain ⟨v1, _, _, _, _, _, _⟩ := visit_master HP (K.length + 1) k st hok hb
    rw [List.foldl_cons]
    exact ihks _ (stateOk_of_visiting_eq v1 hok) (hP k st hok hb hp)

/-- When the visited module is present, `visit` adds only cycle errors
(the missing-module branch requires an absent id, and extracted
dependencies are pre-filtered for presence). -/
theorem visit_errors_shape {D : String → List String} {present : String → Bool} {K : List String}
    (HP : ∀ x, present x = true → x ∈ K) (HD : ∀ x d, d ∈ D x → present d = true) :
    ∀ (n : Nat) (m : String) (st : GraphState), StateOk K st →
      K.length + 1 ≤ n + st.visiting.length → present m = true →
      (∀ e ∈ st.errors, ∃ y, e = cycleMsg y) →
      (∀ e ∈ (visit D present n m st).errors, ∃ y, e = cycleMsg y) := by
  intro n
  induction n with
  | zero => intro m st _ _ _ herr; exact herr
  | succ n ih =>
    intro m st hok hb hm herr
    by_cases h1 : m ∈ st.visiting
    · rw [visit_succ, if_pos h1]
      intro e he
      rcases List.mem_append.mp he with he | he
      · exact herr e he
      · rw [List.mem_singleton] at he
        exact ⟨m, he⟩
    · by_cases h2 : m ∈ st.visited
      · rw [visit_succ, if_neg h1, if_pos h2]
        exact herr
      · cases h3 : present m with
        | false => rw [h3] at hm; exact Bool.noConfusion hm
        | true =>
          have hcond : ¬ (present m = false) := by rw [h3]; exact fun hh => Bool.noConfusion hh
          have hs1 : StateOk K ({ st with visiting := m :: st.visiting }) := by
            refine ⟨List.nodup_cons.mpr ⟨h1, hok.1⟩, ?_⟩
            intro v hv
            rcases List.mem_cons.mp hv with hveq | hv
            · rw [hveq]; exact HP m h3
            · exact hok.2 v hv
          have hb1 : K.length + 1 ≤
              n + ({ st with visiting := m :: st.visiting } : GraphState).visiting.length := by
            simp only [List.length_cons]
            omega
          have hfold : ∀ (ds : List String) (s : GraphState), (∀ d ∈ ds, present d = true) →
              StateOk K s → K.length + 1 ≤ n + s.visiting.length →
              (∀ e ∈ s.errors, ∃ y, e = cycleMsg y) →
              (∀ e ∈ (visitFold D present n ds s).errors, ∃ y, e = cycleMsg y) := by
            intro ds
            induction ds with
            | nil => intro s _ _ _ h; exact h
            | cons d ds ihds =>
              intro s hpres hok' hb' herr'
              obtain ⟨v1, _, _, _, _, _, _⟩ := visit_master HP n d s hok' hb'
              rw [visitFold_cons]
              exact ihds _ (fun d' hd' => hpres d' (List.mem_cons_of_mem d hd'))
                (stateOk_of_visiting_eq v1 hok') (by rw [v1]; exact hb')
                (ih d s hok' hb' (hpres d (List.mem_cons_self d ds)) herr')
          rw [visit_succ, if_neg h1, if_neg h2, if_neg hcond]
          exact hfold (D m) _ (fun d hd => HD m d hd) hs1 hb1 herr

/-- Distinct message shapes: a cycle error is never a missing-module error. -/
theorem cycleMsg_ne_missingMsg (y m : String) : cycleMsg y ≠ missingMsg m := by
  intro h
  have h2 := congrArg String.data h
  rw [cycleMsg, missingMsg, String.data_append, String.data_append] at h2
  have e1 : "检测到循环依赖: ".data = '检' :: "测到循环依赖: ".data := rfl
  have e2 : "模块未找到: ".data = '模' :: "块未找到: ".data := rfl
  rw [e1, e2, List.cons_append, List.cons_append] at h2
  have := (List.cons.injEq .. |>.mp h2).1
  exact absurd this (by decide)

/-- C2: a compilation request containing a self-importing module, or a
mutual import pair, yields a cycle error from dependency resolution; the
traversal still completes (every key is in the returned order, so all
reachable errors are collected in the one pass), and the worker posts a
failure response with no bundle code. -/
theorem handleRequest_cycle_failure (compileModuleFn : String → String → Except String String)
    (request : WorkerRequest)
    (hcyc : (∃ m, m ∈ moduleKeys request.modules ∧ m ∈ depsOf request.modules m) ∨
      (∃ a b, a ≠ b ∧ a ∈ moduleKeys request.modules ∧ b ∈ moduleKeys request.modules ∧
        b ∈ depsOf request.modules a ∧ a ∈ depsOf request.modules b)) :
    (∃ m, cycleMsg m ∈ (buildDependencyGraph request.modules).errors) ∧
    (∀ k ∈ moduleKeys request.modules, k ∈ (buildDependencyGraph request.modules).order) ∧
    (handleRequest compileModuleFn request).success = false ∧
    (handleRequest compileModuleFn request).bundleCode = none := by
  have HP : ∀ x, ((request.modules.lookup x).isSome = true) → x ∈ moduleKeys request.modules :=
    fun x hx => mem_keys_of_lookup_isSome hx
  have hinit : StateOk (moduleKeys request.modules) (⟨[], [], [], []⟩ : GraphState) :=
    ⟨List.nodup_nil, fun v hv => absurd hv (List.not_mem_nil v)⟩
  obtain ⟨hv, hs, he, hm, hr, hc⟩ :=
    foldKeys_facts (D := depsOf request.modules) HP (moduleKeys request.modules)
      ⟨[], [], [], []⟩ rfl hinit
  have hR := hr ⟨fun x => Iff.rfl, List.nodup_nil, fun x hx => absurd hx (List.not_mem_nil x)⟩
  have horder : ∀ k ∈ moduleKeys request.modules,
      k ∈ (buildDependencyGraph request.modules).order := by
    intro k hk
    rw [buildDependencyGraph_eq]
    exact (hR.1 k).mp (hc k hk (lookup_isSome_of_mem_keys hk))
  have hexists : ∃ m, cycleMsg m ∈ (buildDependencyGraph request.modules).errors := by
    rcases hcyc with ⟨m, hmk, hmm⟩ | ⟨a, b, hab, hak, hbk, hba, hab'⟩
    · have hpre := foldKeys_preserve HP
        (fun st => m ∈ st.visited → cycleMsg m ∈ st.errors)
        (fun m' st hok hb hp =>
          visit_selfloop HP m hmm ((moduleKeys request.modules).length + 1) m' st hok hb hp)
        (moduleKeys request.modules) ⟨[], [], [], []⟩ hinit
        (fun hmem => absurd hmem (List.not_mem_nil m))
      refine ⟨m, ?_⟩
      rw [buildDependencyGraph_eq]
      exact hpre (hc m hmk (lookup_isSome_of_mem_keys hmk))
    · have hpa : (request.modules.lookup a).isSome = true := lookup_isSome_of_mem_keys hak
      have hpb : (request.modules.lookup b).isSome = true := lookup_isSome_of_mem_keys hbk
      have hpre := foldKeys_preserve HP
        (fun st => (a ∈ st.visited ∨ b ∈ st.visited) →
          (cycleMsg a ∈ st.errors ∨ cycleMsg b ∈ st.errors))
        (fun m' st hok hb hp =>
          visit_pair HP a b hba hab' hpa hpb ((moduleKeys request.modules).length + 1)
            m' st hok hb hp)
        (moduleKeys request.modules) ⟨[], [], [], []⟩ hinit
        (fun hmem => by
          rcases hmem with h | h
          · exact absurd h (List.not_mem_nil a)
          · exact absurd h (List.not_mem_nil b))
      have hor := hpre (Or.inl (hc a hak hpa))
      rcases hor with h | h
      · exact ⟨a, by rw [buildDependencyGraph_eq]; exact h⟩
      · exact ⟨b, by rw [buildDependencyGraph_eq]; exact h⟩
  have hne : (buildDependencyGraph request.modules).errors ≠ [] := by
    obtain ⟨m, hmem⟩ := hexists
    exact List.ne_nil_of_mem hmem
  have hlen : (buildDependencyGraph request.modules).errors.length > 0 :=
    List.length_pos.mpr hne
  refine ⟨hexists, horder, ?_, ?_⟩
  · unfold handleRequest
    rw [if_pos hlen]
  · unfold handleRequest
    rw [if_pos hlen]

/-- Witness for C2 at a concrete mutual pair `A ↔ B`. -/
theorem handleRequest_cycle_failure_witness :
    (∃ m, cycleMsg m ∈ (buildDependencyGraph [("A", ⟨"A", "import x from \"./B\""⟩),
        ("B", ⟨"B", "import y from \"./A\""⟩)]).errors) ∧
    (handleRequest (fun _ c => .ok c) ⟨"1", [("A", ⟨"A", "import x from \"./B\""⟩),
        ("B", ⟨"B", "import y from \"./A\""⟩)], "A"⟩).success = false ∧
    (handleRequest (fun _ c => .ok c) ⟨"1", [("A", ⟨"A", "import x from \"./B\""⟩),
        ("B", ⟨"B", "import y from \"./A\""⟩)], "A"⟩).bundleCode = none := by
  obtain ⟨he, _, hs, hb⟩ := handleRequest_cycle_failure (fun _ c => .ok c)
    ⟨"1", [("A", ⟨"A", "import x from \"./B\""⟩), ("B", ⟨"B", "import y from \"./A\""⟩)], "A"⟩
    (Or.inr ⟨"A", "B", by decide, by decide, by decide, by decide, by decide⟩)
  exact ⟨he, hs, hb⟩

/-- C3, counterexample: a module whose only relative import points at an id
absent from the module map.  Dependency resolution records no error at all
(the reference is skipped during extraction rather than reported), the
module is ordered normally, and the request succeeds with a bundle —
refuting the claim that a missing-module error is recorded and the request
ends in an error response without a bundle. -/
theorem missingImport_counterexample :
    (buildDependencyGraph [("A", ⟨"A", "import B from \"./Missing\""⟩)]).errors = [] ∧
    (buildDependencyGraph [("A", ⟨"A", "import B from \"./Missing\""⟩)]).order = ["A"] ∧
    (handleRequest (fun _ c => .ok c)
      ⟨"7", [("A", ⟨"A", "import B from \"./Missing\""⟩)], "A"⟩).success = true ∧
    (handleRequest (fun _ c => .ok c)
      ⟨"7", [("A", ⟨"A", "import B from \"./Missing\""⟩)], "A"⟩).bundleCode ≠ none := by
  exact ⟨by decide, by decide, by decide, by decide⟩

/-- C3, amended: a relative `./`/`../` reference whose normalized target is
absent from the module map is dropped during dependency extraction — every
extracted dependency is present in the map — so the missing-module branch
of `visit` never fires: every recorded resolution error is a cycle error,
and in particular no missing-module error is ever recorded. -/
theorem missing_module_never_reported :
    (∀ (modules : ModuleMap) (x d : String), d ∈ depsOf modules x →
      (modules.lookup d).isSome = true) ∧
    (∀ (modules : ModuleMap) (e : String), e ∈ (buildDependencyGraph modules).errors →
      ∃ y, e = cycleMsg y) ∧
    (∀ (modules : ModuleMap) (m : String),
      missingMsg m ∉ (buildDependencyGraph modules).errors) := by
  have herr : ∀ (modules : ModuleMap) (e : String),
      e ∈ (buildDependencyGraph modules).errors → ∃ y, e = cycleMsg y := by
    intro modules e he
    have HP : ∀ x, ((modules.lookup x).isSome = true) → x ∈ moduleKeys modules :=
      fun x hx => mem_keys_of_lookup_isSome hx
    have HD : ∀ x d, d ∈ depsOf modules x → ((modules.lookup d).isSome = true) :=
      fun x d hd => depsOf_present hd
    have hfold : ∀ (ks : List String) (st : GraphState), (∀ k ∈ ks, (modules.lookup k).isSome = true) →
        StateOk (moduleKeys modules) st → (∀ e' ∈ st.errors, ∃ y, e' = cycleMsg y) →
        (∀ e' ∈ (ks.foldl (fun s k => visit (depsOf modules)
            (fun m => (modules.lookup m).isSome) ((moduleKeys modules).length + 1) k s) st).errors,
          ∃ y, e' = cycleMsg y) := by
      intro ks
      induction ks with
      | nil => intro st _ _ h; exact h
      | cons k ks ihks =>
        intro st hpres hok hsh
        have hb : (moduleKeys modules).length + 1 ≤
            ((moduleKeys modules).length + 1) + st.visiting.length := Nat.le_add_right _ _
        obtain ⟨v1, _, _, _, _, _, _⟩ := visit_master HP ((moduleKeys modules).length + 1) k st hok hb
        rw [List.foldl_cons]
        exact ihks _ (fun k' hk' => hpres k' (List.mem_cons_of_mem k hk'))
          (stateOk_of_visiting_eq v1 hok)
          (visit_errors_shape HP HD ((moduleKeys modules).length + 1) k st hok hb
            (hpres k (List.mem_cons_self k ks)) hsh)
    rw [buildDependencyGraph_eq] at he
    exact hfold (moduleKeys modules) ⟨[], [], [], []⟩
      (fun k hk => lookup_isSome_of_mem_keys hk)
      ⟨List.nodup_nil, fun v hv => absurd hv (List.not_mem_nil v)⟩
      (fun e' he' => absurd he' (List.not_mem_nil e')) e he
  refine ⟨fun modules x d hd => depsOf_present hd, herr, ?_⟩
  intro modules m hmem
  obtain ⟨y, hy⟩ := herr modules (missingMsg m) hmem
  exact cycleMsg_ne_missingMsg y m hy.symm

/-- Witness for the amended C3: in the self-import map the recorded error is
a cycle error, and the extracted dependency of the two-module map is a
present key. -/
theorem missing_module_never_reported_witness :
    (∃ y, cycleMsg "A" = cycleMsg y) ∧
    (([("A", (⟨"A", "import B from \"./B\""⟩ : Module)), ("B", ⟨"B", "export default 42"⟩)].lookup
      "B").isSome = true) := by
  refine ⟨?_, ?_⟩
  · apply missing_module_never_reported.2.1 [("A", ⟨"A", "import x from \"./A\""⟩)]
    decide
  · apply missing_module_never_reported.1
      [("A", ⟨"A", "import B from \"./B\""⟩), ("B", ⟨"B", "export default 42"⟩)] "A"
    decide

/-- C6: in the bundle's module registry the factory of an id is evaluated at
most once: a `request`/`__getModule` call that returns exports either found
them in the cache (no invocation) or invoked the factory and cached them,
and every later call for the same id returns the cached exports object with
no further invocation — `getModule` is idempotent after the first call. -/
theorem getModule_memoized {Exports : Type} (reg : ModuleRegistry Exports) (id : String)
    (exports : Exports) (reg' : ModuleRegistry Exports) (invoked : Bool)
    (h : getModule reg id = (.ok exports, reg', invoked)) :
    (reg.cache.lookup id = none →
      invoked = true ∧ reg.registry.lookup id = some (.ok exports) ∧
        reg'.cache.lookup id = some exports) ∧
    getModule reg' id = (.ok exports, reg', false) := by
  unfold getModule at h
  cases hc : reg.cache.lookup id with
  | some v =>
    rw [hc] at h
    simp only [Prod.mk.injEq, Except.ok.injEq] at h
    obtain ⟨rfl, rfl, rfl⟩ := h
    refine ⟨fun hnone => Option.noConfusion hnone, ?_⟩
    unfold getModule
    rw [hc]
  | none =>
    rw [hc] at h
    cases hr : reg.registry.lookup id with
    | none => rw [hr] at h; simp at h
    | some factory =>
      rw [hr] at h
      cases factory with
      | error e => simp at h
      | ok v =>
        simp only [Prod.mk.injEq, Except.ok.injEq] at h
        obtain ⟨rfl, rfl, rfl⟩ := h
        have hcache : (({ reg with cache := (id, v) :: reg.cache }
            : ModuleRegistry Exports)).cache.lookup id = some v := by
          simp [List.lookup]
        exact ⟨fun _ => ⟨rfl, rfl, hcache⟩, by unfold getModule; rw [hcache]⟩

/-- Witness for C6 at a concrete registry: one registered factory, first
call invokes and caches, second call is served from the cache. -/
theorem getModule_memoized_witness :
    getModule (registerModule (⟨[], []⟩ : ModuleRegistry Nat) "app" (.ok 42)) "app" =
      (.ok 42, ⟨[("app", .ok 42)], [("app", 42)]⟩, true) ∧
    getModule (⟨[("app", .ok 42)], [("app", 42)]⟩ : ModuleRegistry Nat) "app" =
      (.ok 42, ⟨[("app", .ok 42)], [("app", 42)]⟩, false) := by
  have h1 : getModule (registerModule (⟨[], []⟩ : ModuleRegistry Nat) "app" (.ok 42)) "app" =
      (.ok 42, ⟨[("app", .ok 42)], [("app", 42)]⟩, true) := by rfl
  exact ⟨h1, (getModule_memoized _ _ _ _ _ h1).2⟩

/-- C9, counterexample: two compile requests are in flight (ids 1 and then
2, so 2 is the most recently issued); their responses arrive newest first.
The response with id "1" matches its own pending listener — matching in
`compileFrontend` is against the listener's captured id, not the most
recently issued one — so it is not discarded: it overwrites the newer
result in the preview, refuting the claim that a response whose id differs
from the most recently issued request id is discarded. -/
theorem deliverWorkerResponse_counterexample :
    processWorkerResponses [1, 2] none
      [⟨"2", true, some "fresh", none⟩, ⟨"1", true, some "stale", none⟩] =
      ([], some ⟨"1", true, some "stale", none⟩) ∧
    ("1" : String) ≠ toString (2 : Nat) := by
  exact ⟨by decide, by decide⟩

/-- C9, amended: a response is discarded when its id matches none of the
pending requests' ids — each pending compile accepts exactly the response
carrying its own request id.  This does not discard a late response of an
earlier request while it is still pending, so with two requests in flight
a stale response can still overwrite the newer result. -/
theorem deliverWorkerResponse_unmatched (pending : List Nat) (preview : Option WorkerResponse)
    (result : WorkerResponse)
    (h : ∀ requestId ∈ pending, (result.id == toString requestId) = false) :
    deliverWorkerResponse pending preview result = (pending, preview) := by
  unfold deliverWorkerResponse
  have hany : pending.any (fun requestId => result.id == toString requestId) = false := by
    rw [List.any_eq_false]
    intro x hx
    simp [h x hx]
  simp [hany]

/-- Witness for the amended C9: one pending request (id 2), a response with
a different id leaves both the pending list and the preview unchanged. -/
theorem deliverWorkerResponse_unmatched_witness :
    deliverWorkerResponse [2] (some ⟨"2", true, some "fresh", none⟩)
      ⟨"1", true, some "stale", none⟩ = ([2], some ⟨"2", true, some "fresh", none⟩) :=
  deliverWorkerResponse_unmatched _ _ _ (by decide)

/-- C8, counterexample: resolving `lodash` (which has the entry
`lodash.min.js` in the static `CDN_PATH_MAP`) with a reachable package.json
whose `main` is `lodash.js` and a probe that accepts the candidate returns
the probed URL `.../lodash.js`, not the URL built from the table path: the
probed paths are consulted first even when the name is in the table. -/
theorem findValidCdnUrl_counterexample :
    findValidCdnUrl (some ⟨"lodash", none, none, .absent, none, some "lodash.js"⟩)
        (fun _ => true) "lodash" "4.17.21" =
      "https://cdn.jsdelivr.net/npm/lodash@4.17.21/lodash.js" ∧
    CDN_PATH_MAP.lookup "lodash" = some "lodash.min.js" ∧
    "https://cdn.jsdelivr.net/npm/lodash@4.17.21/lodash.js" ≠
      cdnUrlFor "lodash" "4.17.21" "lodash.min.js" := by
  exact ⟨by decide, by decide, by decide⟩

/-- C8, amended: the static known-path table is the fallback, not the first
consult: the URL built from the table entry is returned exactly when the
package.json fetch failed or no probed candidate path validated. -/
theorem findValidCdnUrl_table_fallback (packageInfo : Option PackageJson)
    (validateCdnUrl : String → Bool) (packageName version knownPath : String)
    (hk : CDN_PATH_MAP.lookup packageName = some knownPath)
    (hp : packageInfo = none ∨ ∀ p, packageInfo = some p →
      (analyzePackageEntry p).find?
        (fun path => validateCdnUrl (cdnUrlFor packageName version path)) = none) :
    findValidCdnUrl packageInfo validateCdnUrl packageName version =
      cdnUrlFor packageName version knownPath := by
  unfold findValidCdnUrl
  rcases hp with rfl | hall
  · simp [hk]
  · cases packageInfo with
    | none => simp [hk]
    | some p => simp [hk, hall p rfl]

/-- Witness for the amended C8: with the package.json fetch failing, lodash
resolves to the pre-registered table path. -/
theorem findValidCdnUrl_table_fallback_witness :
    findValidCdnUrl none (fun _ => true) "lodash" "4.17.21" =
      cdnUrlFor "lodash" "4.17.21" "lodash.min.js" :=
  findValidCdnUrl_table_fallback none (fun _ => true) "lodash" "4.17.21" "lodash.min.js"
    (by decide) (Or.inl rfl)

/-- C7, counterexample: a file set with zero external import references, a
single file and a small total size for which the backend (remote) strategy,
not the frontend (local) one, is selected — the file contains
`process.env`, one of the advanced-feature patterns checked before the
local rule. -/
theorem analyzeAndSelectStrategy_counterexample :
    collectDependencies [⟨"App.tsx", "const env = process.env;"⟩] = [] ∧
    ([⟨"App.tsx", "const env = process.env;"⟩] : List FileInfo).length = 1 ∧
    totalContentSize [⟨"App.tsx", "const env = process.env;"⟩] ≤ 50 * 1024 ∧
    analyzeAndSelectStrategy [⟨"App.tsx", "const env = process.env;"⟩] =
      .backend := by
  exact ⟨by decide, by decide, by decide, by decide⟩

/-- C7, amended: the selection is first-match.  Any file with a
dynamic-import call selects the backend strategy regardless of size and
count; and a file set with no external references, a single file, at most
50 KB of content and no advanced-feature pattern (`require(`,
`process.env`, `import.meta`, `dynamic import`, or a dynamic-import call)
selects the frontend strategy. -/
theorem analyzeAndSelectStrategy_amended :
    (∀ files : List FileInfo, (∃ f ∈ files, hasDynamicImportCall f.content.toList = true) →
      analyzeAndSelectStrategy files = .backend) ∧
    (∀ files : List FileInfo, collectDependencies files = [] → files.length = 1 →
      totalContentSize files ≤ 50 * 1024 →
      (∀ f ∈ files, fileHasAdvancedFeatures f = false) →
      analyzeAndSelectStrategy files = .frontend) := by
  constructor
  · rintro files ⟨f, hf, hdyn⟩
    have hadv : files.any fileHasAdvancedFeatures = true := by
      rw [List.any_eq_true]
      refine ⟨f, hf, ?_⟩
      unfold fileHasAdvancedFeatures
      rw [hdyn]
      simp
    unfold analyzeAndSelectStrategy
    simp [hadv]
  · intro files hdeps hcount hsize hnoadv
    have hadv : files.any fileHasAdvancedFeatures = false := by
      rw [List.any_eq_false]
      intro f hf
      simp [hnoadv f hf]
    unfold analyzeAndSelectStrategy
    rw [hdeps, hcount]
    simp [hadv]
    omega

/-- Witness for the amended C7, both halves at concrete file sets. -/
theorem analyzeAndSelectStrategy_amended_witness :
    analyzeAndSelectStrategy [⟨"App.tsx", "const m = import(\"./x\");"⟩] = .backend ∧
    analyzeAndSelectStrategy [⟨"App.tsx", "const x = 1;"⟩] = .frontend := by
  constructor
  · exact analyzeAndSelectStrategy_amended.1 _
      ⟨⟨"App.tsx", "const m = import(\"./x\");"⟩, by decide, by decide⟩
  · exact analyzeAndSelectStrategy_amended.2 _ (by decide) (by decide) (by decide)
      (by intro f hf; simp at hf; rw [hf]; decide)

/-- C4, counterexample: an import statement with the relative specifier
`./Missing`, whose normalized id is not in the module map, is handled by
the plugin's `ImportDeclaration` visitor with `path.remove()` — the
statement is silently removed (`removedMissing`); no "module not found"
compile error outcome exists in the visitor at all. -/
theorem pluginImportDeclaration_counterexample :
    pluginImportDeclaration [("App", ⟨"App", "export default 1"⟩)] "./Missing" =
      .removedMissing := by decide

/-- C4, amended: an import whose relative specifier resolves to an id
absent from the module map (and which is not a stylesheet reference) is
silently removed by the rewriting step; no compile error is produced.
(The text-based path that is actually active rewrites the default-import
form into a `__getModule` call unconditionally, deferring the failure to
bundle execution; neither path raises a compile-time error.) -/
theorem pluginImportDeclaration_amended (modules : ModuleMap) (source : String)
    (hrel : isRelativeSpec source = true)
    (hcss : strEndsWith source ".css" = false)
    (hmiss : modules.lookup (resolveRelPath source) = none) :
    pluginImportDeclaration modules source = .removedMissing := by
  have hreact : (source == "react") = false := by
    by_cases h : source = "react"
    · subst h; exact absurd hrel (by decide)
    · simp [h]
  unfold pluginImportDeclaration
  unfold isRelativeSpec at hrel
  simp [hreact, hcss, hrel, hmiss]

/-- Witness for the amended C4: an unresolvable relative import in an empty
module map is removed. -/
theorem pluginImportDeclaration_amended_witness :
    pluginImportDeclaration [] "./Widget" = .removedMissing :=
  pluginImportDeclaration_amended [] "./Widget" (by decide) (by decide) (by decide)

/-- C5, counterexample: the module source `export default function Foo(){}`
is rewritten by the active text-based step into two assignments each
holding its own copy of the function expression; executing the pair
allocates two distinct function objects, so the bare exports value (address
0) and its `.default` property (address 1) are not the same object. -/
theorem rewriteExportDefault_counterexample :
    rewriteExportDefault "export default function Foo(){}" =
      "globalThis.__moduleExports = function Foo(){};\nglobalThis.__moduleExports.default = function Foo(){};\n" ∧
    runExportDefaultAssignments [] ⟨0, []⟩ "function Foo(){}" =
      some (0, 1, ⟨2, [(0, 1)]⟩) ∧
    (0 : Nat) ≠ 1 := by
  exact ⟨by decide, by decide, by decide⟩

/-- C5, amended: for `export default X` with `X` an identifier the rewrite
emits the identifier twice and executing the pair yields the identical
bound value for the bare exports and for `.default`; for the
function-declaration form the duplicated function expression yields two
distinct function objects (the counterexample above). -/
theorem rewriteExportDefault_amended :
    (rewriteExportDefault "export default App;" =
      "globalThis.__moduleExports = App;\nglobalThis.__moduleExports.default = App;\n") ∧
    ∀ (env : List (String × Nat)) (h0 : JsHeap) (name : String) (addr : Nat),
      isFunctionExpr name = false → env.lookup name = some addr →
      runExportDefaultAssignments env h0 name =
        some (addr, addr, { h0 with defaultProp := (addr, addr) :: h0.defaultProp }) := by
  constructor
  · decide
  · intro env h0 name addr hfn henv
    unfold runExportDefaultAssignments evalExprText
    simp [hfn, henv]

/-- Witness for the amended C5: executing the identifier pair for `App`
bound at address 7 yields 7 for both the bare value and `.default`. -/
theorem rewriteExportDefault_amended_witness :
    runExportDefaultAssignments [("App", 7)] ⟨0, []⟩ "App" = some (7, 7, ⟨0, [(7, 7)]⟩) :=
  rewriteExportDefault_amended.2 [("App", 7)] ⟨0, []⟩ "App" 7 (by decide) (by decide)

end OnlineEditor
